import Mathlib

/-!
Verification of `MyDocxTools.py` (mousery/MyDocxTools), a run-segmented
rich-text editing engine on python-docx paragraphs.

Shallow embedding conventions:
* a run (`CT_R`) is a record of its text and its run-properties element
  `rPr`; the concrete set of formatting attributes is irrelevant to the
  claims, so an `rPr` is modelled as an opaque handle `Option Nat`
  (`none` models a run whose `w:rPr` child is absent, i.e. Python `None`);
* a paragraph (`CT_P`) is its list of run elements (`r_lst`);
  `paragraph.text` is derived: the concatenation of the runs' texts,
  exactly as in python-docx;
* Python exceptions (IndexError, KeyError, re.error) are modelled by
  `Option`: a raised exception is `none`;
* Python list indexing (which accepts negative indices and raises
  IndexError out of range) is modelled by `listPyGet`;
* the regular-expression engine (`re.finditer`, `re.Match.regs`,
  `re.Match.expand`, `re.Pattern.groupindex`) is an external collaborator
  (Python's standard library, not repository code): a compiled pattern is
  modelled abstractly as a `PatternSem` giving, for a subject text, the
  list of `regs` tuples of its matches; concrete theorems instantiate it
  with the concrete match data the Python engine produces on the concrete
  pattern and subject involved, and `Match.expand` is modelled for the
  template fragments this development uses (numeric and `\g<...>` group
  references and escaped backslashes).
-/

/-- Model of a `w:r` run element: its text and its (opaque) `rPr` handle. -/
structure Run where
  text : List Char
  rpr : Option Nat
deriving Repr, DecidableEq

/-- Model of a `w:p` paragraph element: its ordered list of run elements
(`paragraph.r_lst`). -/
abbrev Para := List Run

/-- Derived paragraph text, as python-docx derives `CT_P.text` from the runs. -/
def paraText (p : Para) : List Char := (p.map Run.text).flatten

/-- Sum of the run text lengths of a paragraph (as an integer, since the
Python code manipulates these as `int`s). -/
def sumLens (p : Para) : Int := (p.map (fun r => (r.text.length : Int))).sum

/-- Cumulative length of the first `i` runs: the `i`-th entry of the
`para_runs_start_index` prefix-sum list. -/
def cumLen (p : Para) (i : Nat) : Int := sumLens (p.take i)

/-- The list `para_runs_start_index` built at the top of
`isolate_para_runs_by_span`:
`[0] + list(accumulate(len(r.text) for r in paragraph.r_lst))`, i.e. the
list of cumulative run lengths `cumLen p 0, …, cumLen p p.length`. -/
def runStarts (p : Para) : List Int := (List.range (p.length + 1)).map (fun i => cumLen p i)

/-- Python's `bisect.bisect_left l v`: the leftmost insertion point of `v`
in the sorted list `l`.  On a nondecreasing list this equals the length of
the prefix of elements `< v`, which is how we define it (the code only
ever bisects the nondecreasing prefix-sum list `runStarts`). -/
def bisectLeft (l : List Int) (v : Int) : Nat := (l.takeWhile (fun x => decide (x < v))).length

/-- Python list indexing `l[i]`: negative indices count from the end, and
an out-of-range index raises IndexError (modelled as `none`). -/
def listPyGet {α : Type} (l : List α) (i : Int) : Option α :=
  if 0 ≤ i then l.get? i.toNat
  else if 0 ≤ i + l.length then l.get? (i + l.length).toNat
  else none

/-- Insertion of one run immediately after the run currently at position
`i` (`after_this_run.addnext(...)`). -/
def insertAfterIdx (q : Para) (i : Nat) (r : Run) : Para :=
  q.take (i + 1) ++ r :: q.drop (i + 1)

/-- Removal of the `w:rPr` child of the run at position `p`: the effect
lxml's `replace(old, new)` has on the run that currently holds `new`,
because `xmlReplaceNode` unlinks the new node from its old parent before
attaching it. -/
def stripRun (q : Para) (p : Nat) : Para :=
  match q.get? p with
  | none => q
  | some r => q.set p { text := r.text, rpr := none }

/-- Model of `add_run_after_run(added_run, after_this_run, added_run_rPr)`
in the only form the repository calls it with a string (source lines
40-71), on the paragraph holding the anchor run at index `i`.  The new
run is a deep copy of the anchor with its text replaced, so when the
`rPr` argument is Python `None` (either omitted, or a run's absent
`rPr`) the new run keeps the anchor's *current* `rPr`; when a concrete
`CT_RPr` is passed, `added_run.replace(added_run.get_or_add_rPr(),
added_run_rPr)` swaps it in — and because lxml insertion *moves* nodes,
this reparents the element out of the run that held it, stripping that
run of its formatting.  What `addnext` then attaches is a further deep
copy of `added_run`, so the inserted run carries a fresh copy of the
formatting, never the donated element itself (a second use of the same
donated element therefore strips nobody: the element then lives in the
previous call's discarded intermediate node, not in a run of the
paragraph).  The `rPr` argument is encoded as `none` for Python `None`
and `some (h, src)` for a `CT_RPr` carrying formatting `h`, where `src`
is the position of the run currently holding the element (`none` for a
detached element with no holder). -/
def add_run_after_run (q : Para) (i : Nat) (added_text : List Char)
    (added_run_rPr : Option (Nat × Option Nat)) : Option Para :=
  (q.get? i).map fun after_this_run =>
    match added_run_rPr with
    | none => insertAfterIdx q i { text := added_text, rpr := after_this_run.rpr }
    | some hp =>
      insertAfterIdx
        (match hp.2 with
         | none => q
         | some p => stripRun q p) i
        { text := added_text, rpr := some hp.1 }

/-- Model of `split_run_at_string_index(run, index)` at the level of the
run itself: `set_run_text(run, text[:index])` followed by
`add_run_after_run(text[index:], run)` (which copies the run's `rPr`).
Fails (IndexError) unless `0 < index < len(text)`. -/
def split_run_at_string_index (r : Run) (index : Int) : Option (Run × Run) :=
  if index ≤ 0 ∨ (r.text.length : Int) ≤ index then none
  else some ({ text := r.text.take index.toNat, rpr := r.rpr },
             { text := r.text.drop index.toNat, rpr := r.rpr })

/-- Applying `split_run_at_string_index` to `paragraph.r_lst[k]` (Python
indexing, so `k` may be negative as happens inside
`isolate_para_runs_by_span`): the run is replaced in place by its two
halves. -/
def splitParaRun (p : Para) (k index : Int) : Option Para :=
  (listPyGet p k).bind fun r =>
    (split_run_at_string_index r index).bind fun ab =>
      let j : Nat := if k < 0 then (k + p.length).toNat else k.toNat
      some (p.take j ++ ab.1 :: ab.2 :: p.drop (j + 1))

/-- Model of `insert_run_after` (spec §6), realized in the source by
`add_run_after_run` on the anchor `paragraph.r_lst[k]` with a detached
`rPr` (one not parented in any run, so no donor is stripped): the new
run is placed immediately after the anchor. -/
def insert_run_after (p : Para) (k : Nat) (t : List Char) (rpr : Option Nat) : Option Para :=
  add_run_after_run p k t (rpr.map fun h => (h, none))

/-- Model of `remove_run` on `paragraph.r_lst[k]`:
`run.getparent().remove(run)` detaches exactly that run. -/
def remove_run (p : Para) (k : Nat) : Option Para :=
  if k < p.length then some (p.take k ++ p.drop (k + 1)) else none

/-- Model of `isolate_para_runs_by_span(paragraph, span)` (source lines
258-278), kept line for line:

* `para_runs_start_index` is computed once, before either split;
* the end boundary is processed first, the start boundary second, both
  guards and both `para_runs_start_index` lookups using the stale list;
* run lookups use Python indexing (`r_lst[trim_end_run - 1]` can wrap to
  the last run when `trim_end_run = 0`);
* on the start split the returned end index is incremented by one. -/
def isolate_para_runs_by_span (p : Para) (span : Int × Int) : Option (Para × Nat × Nat) :=
  let P := runStarts p
  let trim_start := span.1
  let trim_end := span.2
  let trim_start_run := bisectLeft P trim_start
  let trim_end_run := bisectLeft P trim_end
  (listPyGet P (trim_end_run : Int)).bind fun pEnd =>
  (if trim_end ≠ pEnd then
      (listPyGet P ((trim_end_run : Int) - 1)).bind fun pEnd1 =>
        splitParaRun p ((trim_end_run : Int) - 1) (trim_end - pEnd1)
    else some p).bind fun p1 =>
  (listPyGet P (trim_start_run : Int)).bind fun pStart =>
  if trim_start ≠ pStart then
    (listPyGet P ((trim_start_run : Int) - 1)).bind fun pStart1 =>
      (splitParaRun p1 ((trim_start_run : Int) - 1) (trim_start - pStart1)).bind fun p2 =>
        some (p2, trim_start_run, trim_end_run + 1)
  else
    some (p1, trim_start_run, trim_end_run)

/-- Characters matched by `\w` in the `g<\w+>` alternative of the
reference-token pattern in `find_reference_in_repl`. -/
def isWordChar (c : Char) : Bool := c.isAlphanum || c = '_'

/-- Scanner behind `find_reference_in_repl(repl)` (source lines 223-226):
`re.finditer` of `\\((?:\d+)|(?:g<\w+>))` over the template, reported as
`(span, nameORnumber)` pairs; note that for `\g<name>` the captured
`nameORnumber` is the whole `g<name>` text (including `g<` and `>`), as
the Python group does.  Written with explicit fuel so it reduces by
kernel computation; `fuel = length + 1` always suffices since each step
consumes at least one character. -/
def scanRefsAux (fuel : Nat) (s : List Char) (pos : Nat) : List ((Nat × Nat) × List Char) :=
  match fuel with
  | 0 => []
  | fuel + 1 =>
    match s with
    | [] => []
    | c :: rest =>
      if c = '\\' then
        let ds := rest.takeWhile Char.isDigit
        if ds ≠ [] then
          ((pos, pos + 1 + ds.length), ds) :: scanRefsAux fuel (rest.drop ds.length) (pos + 1 + ds.length)
        else
          match rest with
          | 'g' :: '<' :: r2 =>
            let ws := r2.takeWhile isWordChar
            (match r2.drop ws.length with
             | '>' :: r3 =>
               if ws ≠ [] then
                 ((pos, pos + 4 + ws.length), 'g' :: '<' :: (ws ++ ['>'])) ::
                   scanRefsAux fuel r3 (pos + 4 + ws.length)
               else
                 scanRefsAux fuel rest (pos + 1)
             | _ => scanRefsAux fuel rest (pos + 1))
          | _ => scanRefsAux fuel rest (pos + 1)
      else
        scanRefsAux fuel rest (pos + 1)

/-- Model of `find_reference_in_repl(repl)`: the list of back-reference
tokens of the template, each with its span and its captured
`nameORnumber` text (the unused third component, the match object itself,
is dropped). -/
def find_reference_in_repl (repl : List Char) : List ((Nat × Nat) × List Char) :=
  scanRefsAux (repl.length + 1) repl 0

/-- Section list built by the loop of `find_and_replace` over
`find_reference_in_repl` (source lines 369-392): each section is
`(repl_sections_names[i], repl_sections_starts[i], repl_sections_ends[i])`.
The loop starts from one `None` literal section at 0; a reference
starting exactly at the previous section start overwrites that section's
name; every reference then appends a fresh `None` section starting at the
reference's end, so the list always ends with a literal section, possibly
empty.  (`repl_sections_matches` is also built in the source but never
read afterwards, so it is not modelled.) -/
def buildSections (replace_text : List Char) : List (Option (List Char) × Nat × Nat) :=
  let refs := find_reference_in_repl replace_text
  let ns :=
    refs.foldl
      (fun (acc : List (Option (List Char)) × List Nat) rg =>
        let names := acc.1
        let starts := acc.2
        let gs := rg.1.1
        let ge := rg.1.2
        let nm := rg.2
        let acc1 : List (Option (List Char)) × List Nat :=
          if gs = starts.getLastD 0 then (names.dropLast ++ [some nm], starts)
          else (names ++ [some nm], starts ++ [gs])
        (acc1.1 ++ [none], acc1.2 ++ [ge]))
      ([none], [0])
  let ends := ns.2.drop 1 ++ [replace_text.length]
  ns.1.zip (ns.2.zip ends)

/-- Parse a nonempty digit string as a group number. -/
def natOfDigits (ds : List Char) : Nat := ds.foldl (fun n c => 10 * n + (c.toNat - '0'.toNat)) 0

/-- Text of capture group `n` of a match whose `regs` are given, against
the subject string `orig` the match was made on; fails (as
`re.Match.expand` does) when the group number is out of range or the
group did not participate (its `regs` entry is `(-1, -1)`). -/
def groupText (regs : List (Int × Int)) (orig : List Char) (n : Nat) : Option (List Char) :=
  match regs.get? n with
  | none => none
  | some (a, b) => if a < 0 then none else some ((orig.drop a.toNat).take (b - a).toNat)

/-- Model of `re.Match.expand(template)` for the template fragments this
code feeds it: numeric references `\N`, named references `\g<name>`
(resolved through the pattern's group-name table, here an association
list), `\g<N>` with a numeric name, and escaped backslashes `\\`; any
other escape is a failure.  (Python additionally accepts ASCII escapes
such as `\n`; none occur in this development.)  Fuel as in
`scanRefsAux`. -/
def expandAux (gindex : List (List Char × Nat)) (regs : List (Int × Int)) (orig : List Char)
    (fuel : Nat) (s : List Char) : Option (List Char) :=
  match fuel with
  | 0 => none
  | fuel + 1 =>
    match s with
    | [] => some []
    | c :: rest =>
      if c = '\\' then
        let ds := rest.takeWhile Char.isDigit
        if ds ≠ [] then
          (groupText regs orig (natOfDigits ds)).bind fun sub =>
            (expandAux gindex regs orig fuel (rest.drop ds.length)).bind fun tl =>
              some (sub ++ tl)
        else
          match rest with
          | '\\' :: r2 =>
            (expandAux gindex regs orig fuel r2).bind fun tl => some ('\\' :: tl)
          | 'g' :: '<' :: r2 =>
            let ws := r2.takeWhile isWordChar
            (match r2.drop ws.length with
             | '>' :: r3 =>
               if ws ≠ [] then
                 (if ws.all Char.isDigit then some (natOfDigits ws)
                  else
                    match gindex.lookup ws with
                    | some n => some n
                    | none => none).bind fun n =>
                   (groupText regs orig n).bind fun sub =>
                     (expandAux gindex regs orig fuel r3).bind fun tl => some (sub ++ tl)
               else none
             | _ => none)
          | _ => none
      else
        (expandAux gindex regs orig fuel rest).bind fun tl => some (c :: tl)

/-- Model of `match.expand(s)` against a match with the given `regs` on
subject `orig`, for a pattern with group-name table `gindex`. -/
def matchExpand (gindex : List (List Char × Nat)) (regs : List (Int × Int)) (orig : List Char)
    (s : List Char) : Option (List Char) :=
  expandAux gindex regs orig (s.length + 1) s

/-- Abstract semantics of a compiled pattern (`re.compile(find)`), the
external collaborator of `find` and `find_and_replace`: `search text`
returns the `regs` tuples (overall span first, then one span per capture
group, `(-1, -1)` for a group that did not participate) of the matches of
`re.finditer(pattern, text)` in order, and `groupindex` is the pattern's
group-name table. -/
structure PatternSem where
  search : List Char → List (List (Int × Int))
  groupindex : List (List Char × Nat)

/-- Model of `find(paragraph, find)` (source lines 280-334) after the
`re.finditer` call, whose output is the `ms` argument: for each match, in
order, isolate the overall span, then every entry of `regs[1:]`
(including `(-1, -1)` entries for non-participating groups, which the
source passes to the isolator unfiltered); adjust the overall run range's
end by the growth in run count caused by isolating the groups, and store
it as entry 0 of the match's group-range list. -/
def findCore (p : Para) (ms : List (List (Int × Int))) :
    Option (Para × List (Nat × Nat) × List (List (Nat × Nat))) :=
  if ms = [] then some (p, [], [])
  else
    ms.foldlM
      (fun (acc : Para × List (Nat × Nat) × List (List (Nat × Nat))) regs =>
        match regs with
        | [] => none
        | overall :: grps =>
          (isolate_para_runs_by_span acc.1 overall).bind fun r1 =>
            let q1 := r1.1
            let sp := r1.2
            (grps.foldlM
              (fun (st : Para × List (Nat × Nat)) g =>
                (isolate_para_runs_by_span st.1 g).bind fun r =>
                  some (r.1, st.2 ++ [r.2]))
              (q1, [])).bind fun r2 =>
              let q2 := r2.1
              let shift := q2.length - q1.length
              let spAdj : Nat × Nat := (sp.1, sp.2 + shift)
              some (q2, acc.2.1 ++ [spAdj], acc.2.2 ++ [spAdj :: r2.2]))
      (p, [], [])

/-- The loop of `find_and_replace` (source lines 407-414) that looks for
the `rPr` of "the first run in the span that is not in one of the
groups".  Faithfully to the source, the iteration includes `groups[0]`,
which is the overall run range itself, so `fr` jumps to the end of the
whole match on the first iteration; reading `r_lst[fr]` past the end of
the run list is an IndexError (`none`).  A successful read returns the
captured reference: Python `None` if that run has no `rPr`, otherwise
the formatting handle paired with the position of the run holding the
element. -/
def firstNormalLoop (q : Para) (groups : List (Nat × Nat)) (fr : Nat) :
    Option (Option (Nat × Nat)) :=
  match groups with
  | [] => some none
  | g :: rest =>
    if g.1 = fr then firstNormalLoop q rest g.2
    else
      match q.get? fr with
      | none => none
      | some r => some (r.rpr.map fun h => (h, fr))

/-- Body of the per-match part of `find_and_replace` (source lines
400-437) for the match with `regs`, group run-ranges `groups` (entry 0 is
the overall range) and overall run range `[lo, hi)`:

* compute `first_normal_run_rPr` by `firstNormalLoop`;
* `groups_rPr = [first_normal_run_rPr] + [r_lst[g.start].rPr for g in groups[1:]]` —
  references captured before any mutation, each an attached element
  recorded as (handle, holder position in `q`'s coordinates);
* `prev_run = r_lst[lo]` (IndexError if out of range);
* the section loop, carried as the evolving paragraph plus the count of
  runs inserted so far: each section's template text is expanded against
  the match (whose subject is `orig`, the paragraph text at `find` time)
  and the new run built and inserted by `add_run_after_run` after
  `prev_run` — which is never advanced, so the new runs end up after
  position `lo` in reverse order — with the section's resolved `rPr`
  (`groups_rPr[int(name)]` for a numeric name,
  `groups_rPr[groupindex[name]]` for a named one — the source looks the
  captured `g<name>` text up directly, so a named reference is a
  KeyError); a captured holder position at or after `lo + 1` has been
  shifted by the insertions, hence the adjustment by the insert count;
* finally every original run of `r_lst[lo:hi]` (captured as
  `run_to_remove` before the insertions) is removed by identity: for
  `lo < hi` the anchor at position `lo` and the other originals, which
  the insertions pushed to positions `lo + 1 + n, …, hi - 1 + n` for `n`
  inserted runs; for `hi ≤ lo` the slice is empty and nothing is
  removed. -/
def processMatch (sem : PatternSem) (q : Para) (orig : List Char) (replace_text : List Char)
    (secs : List (Option (List Char) × Nat × Nat)) (regs : List (Int × Int))
    (groups : List (Nat × Nat)) (lo hi : Nat) : Option Para :=
  (firstNormalLoop q groups lo).bind fun fnr =>
    (groups.tail.mapM (fun g =>
        (q.get? g.1).map (fun r => r.rpr.map fun h => (h, g.1)))).bind fun tailRprs =>
      let groups_rPr := fnr :: tailRprs
      (q.get? lo).bind fun _ =>
        (secs.foldlM (fun (st : Para × Nat) sec =>
            (matchExpand sem.groupindex regs orig
                ((replace_text.drop sec.2.1).take (sec.2.2 - sec.2.1))).bind fun expanded =>
              (match sec.1 with
               | none => some fnr
               | some nm =>
                 if nm.all Char.isDigit then groups_rPr.get? (natOfDigits nm)
                 else
                   match sem.groupindex.lookup nm with
                   | some ig => groups_rPr.get? ig
                   | none => none).bind fun rprArg =>
                (add_run_after_run st.1 lo expanded
                    (rprArg.map fun (hp : Nat × Nat) =>
                      (hp.1, some (if lo < hp.2 then hp.2 + st.2 else hp.2)))).map
                  fun q2 => (q2, st.2 + 1))
          (q, 0)).bind fun st =>
        some (if lo < hi then
                st.1.take lo ++ (st.1.drop (lo + 1)).take st.2 ++ st.1.drop (hi + st.2)
              else st.1)

/-- One `(find_text, replace_text)` pass of `find_and_replace` over a
paragraph (source lines 365-437): parse the template into sections,
isolate all matches and groups via `find`, then process the matches in
descending order (`range(len(spans))[::-1]`). -/
def farPair (sem : PatternSem) (p : Para) (replace_text : List Char) : Option Para :=
  let secs := buildSections replace_text
  let para_text := paraText p
  let ms := sem.search para_text
  (findCore p ms).bind fun r =>
    (List.range r.2.1.length).reverse.foldlM
      (fun q i =>
        (ms.get? i).bind fun regs =>
          (r.2.2.get? i).bind fun groups =>
            (r.2.1.get? i).bind fun sp =>
              processMatch sem q para_text replace_text secs regs groups sp.1 sp.2)
      r.1

/-- Model of `find_and_replace(paragraph, finds, replaces)` on a single
paragraph (the `CT_P` branch, source lines 357-437; the `Document` and
`Paragraph` branches only recurse to it, and a bare string argument is
wrapped into a one-element list): the pattern/template pairs of
`zip(finds, replaces)` are applied sequentially, each pass compiling its
pattern (`compile` models the `re` module) and re-scanning the
paragraph's current text. -/
def find_and_replace (compile : List Char → PatternSem) (p : Para)
    (finds replaces : List (List Char)) : Option Para :=
  (finds.zip replaces).foldlM (fun q fr => farPair (compile fr.1) q fr.2) p

/-- Spans of the matches of `re.finditer` for a *literal* pattern
(one with no regular-expression metacharacters): the leftmost
non-overlapping occurrences of the pattern text.  An empty pattern
matches at every position, as Python's `finditer` does. -/
def occAux (pat : List Char) (fuel : Nat) (t : List Char) (i : Nat) :
    List (List (Int × Int)) :=
  match fuel with
  | 0 => []
  | fuel + 1 =>
    match t with
    | [] => []
    | c :: rest =>
      if pat ≠ [] ∧ pat.isPrefixOf (c :: rest) then
        [((i : Int), (i : Int) + pat.length)] ::
          occAux pat fuel ((c :: rest).drop pat.length) (i + pat.length)
      else
        occAux pat fuel rest (i + 1)

/-- Semantics of a compiled literal pattern: no capture groups, and the
matches are the leftmost non-overlapping occurrences of the pattern text
(every position for the empty pattern, including the end of the
subject). -/
def literalCompile (pat : List Char) : PatternSem :=
  { search := fun text =>
      if pat = [] then (List.range (text.length + 1)).map (fun i => [((i : Int), (i : Int))])
      else occAux pat (text.length + 1) text 0
    groupindex := [] }

/-- Concatenated text of the run slice `runs[lo:hi]`. -/
def sliceText (p : Para) (lo hi : Nat) : List Char := paraText ((p.drop lo).take (hi - lo))

/-- Replacement of a contiguous run range by an arbitrary run list: the
shape of the mutation the replace executor of `find_and_replace` performs
on one match (and the composition of the primitive insert/remove
mutations it is made of). -/
def RangeEdit (q q' : Para) : Prop := ∃ lo hi mid, q' = q.take lo ++ mid ++ q.drop hi

/-- Refinement by run splitting: `SplitRefines p q` holds when `q` is `p`
with each run replaced, in order and in place, by a nonempty block of
runs that carry the run's `rPr` and whose texts concatenate to the run's
text.  Every mutation `isolate_para_runs_by_span` (and hence `find`)
performs has this shape. -/
inductive SplitRefines : Para → Para → Prop
  | nil : SplitRefines [] []
  | cons (r : Run) (block : Para) (p q : Para) :
      block ≠ [] → (∀ b ∈ block, b.rpr = r.rpr) → (block.map Run.text).flatten = r.text →
      SplitRefines p q → SplitRefines (r :: p) (block ++ q)

/-! ### Concrete pattern semantics (what Python's `re` returns on the
concrete pattern/subject pairs the claim scenarios use) and the concrete
paragraphs of those scenarios -/

/-- Compiled-pattern semantics of `(A)(B)(C)`: on the subject "ABC" one
match, `regs = [(0,3), (0,1), (1,2), (2,3)]`; no other subject arises. -/
def semABC : PatternSem :=
  { search := fun t => if t = "ABC".toList then [[(0, 3), (0, 1), (1, 2), (2, 3)]] else []
    groupindex := [] }

/-- Compiled-pattern semantics of `(A)XB`: on the subject "AXBY" one
match, `regs = [(0,3), (0,1)]`. -/
def semAXB : PatternSem :=
  { search := fun t => if t = "AXBY".toList then [[(0, 3), (0, 1)]] else []
    groupindex := [] }

/-- Scenario B paragraph: text "ABC" held as three runs "A" (bold
handle 1), "B" (italic handle 2), "C" (plain handle 3). -/
def paraScenarioB : Para :=
  [{ text := ['A'], rpr := some 1 }, { text := ['B'], rpr := some 2 },
   { text := ['C'], rpr := some 3 }]

/-- Paragraph "AXBY" in four runs with four distinct attribute handles. -/
def paraAXBY : Para :=
  [{ text := ['A'], rpr := some 0 }, { text := ['X'], rpr := some 1 },
   { text := ['B'], rpr := some 2 }, { text := ['Y'], rpr := some 3 }]

/-- Paragraph "AB" in two runs with handles 1 and 2. -/
def paraAB : Para :=
  [{ text := ['A'], rpr := some 1 }, { text := ['B'], rpr := some 2 }]

/-- Spans chain of the matches a literal pattern produces: starting from
position `i`, each match is a single-`regs` entry `[(st, st + |pat|)]`
with `i ≤ st`, lying inside `orig` and matching the pattern text there,
and the next match starts at or after its end.  `occAux` produces such a
chain. -/
def ChainFrom (pat orig : List Char) : Nat → List (List (Int × Int)) → Prop
  | _, [] => True
  | i, regs :: rest =>
      ∃ st : Nat, regs = [((st : Int), (st : Int) + pat.length)] ∧ i ≤ st ∧
        st + pat.length ≤ orig.length ∧ (orig.drop st).take pat.length = pat ∧
        ChainFrom pat orig (st + pat.length) rest

/-- Well-placed run ranges for the matches of a literal pattern: the
ranges are ordered and disjoint, each is proper and within the paragraph,
each one's run slice reads exactly the pattern text, and every range ends
at or before the run index `fin`. -/
def GoodRanges (pat : List Char) (q : Para) : Nat → List (Nat × Nat) → Nat → Prop
  | bnd, [], fin => bnd ≤ fin
  | bnd, rr :: rest, fin =>
      bnd ≤ rr.1 ∧ rr.1 < rr.2 ∧ rr.2 ≤ q.length ∧ sliceText q rr.1 rr.2 = pat ∧
      GoodRanges pat q rr.2 rest fin

/-! ### Basic facts about `cumLen`, `runStarts`, `bisectLeft`, `listPyGet` -/

theorem sumLens_nonneg (p : Para) : 0 ≤ sumLens p := by
  induction p with
  | nil => simp [sumLens]
  | cons r q ih =>
    simp only [sumLens, List.map_cons, List.sum_cons] at *
    positivity

theorem sumLens_append (p q : Para) : sumLens (p ++ q) = sumLens p + sumLens q := by
  simp [sumLens]

theorem sumLens_eq_textLength (p : Para) : sumLens p = ((paraText p).length : Int) := by
  induction p with
  | nil => simp [sumLens, paraText]
  | cons r q ih => simp [sumLens, paraText, List.length_flatten] at *; omega

theorem cumLen_zero (p : Para) : cumLen p 0 = 0 := by simp [cumLen, sumLens]

theorem cumLen_succ (p : Para) (i : Nat) (r : Run) (h : p[i]? = some r) :
    cumLen p (i + 1) = cumLen p i + r.text.length := by
  have hi : i < p.length := by
    by_contra hc
    simp [List.getElem?_eq_none (Nat.le_of_not_lt hc)] at h
  have hr : p[i] = r := by
    have := List.getElem?_eq_getElem hi
    rw [this] at h
    exact Option.some.inj h
  have ht : p.take (i + 1) = p.take i ++ [r] := by
    rw [← hr]
    simpa using (List.take_concat_get p i hi).symm
  simp [cumLen, ht, sumLens_append, sumLens]

theorem cumLen_mono (p : Para) {i j : Nat} (h : i ≤ j) : cumLen p i ≤ cumLen p j := by
  have h1 : List.take i (List.take j p) = List.take i p := by
    rw [List.take_take]
    simp [Nat.min_eq_left h]
  have hsplit : p.take i ++ ((p.take j).drop i) = p.take j := by
    rw [← h1]
    exact List.take_append_drop i (List.take j p)
  unfold cumLen
  rw [← hsplit, sumLens_append]
  have := sumLens_nonneg ((p.take j).drop i)
  omega

theorem cumLen_nonneg (p : Para) (i : Nat) : 0 ≤ cumLen p i := sumLens_nonneg _

theorem cumLen_of_len_le (p : Para) {i : Nat} (h : p.length ≤ i) : cumLen p i = sumLens p := by
  simp [cumLen, List.take_of_length_le h]

theorem runStarts_length (p : Para) : (runStarts p).length = p.length + 1 := by
  simp [runStarts]

theorem runStarts_getElem? (p : Para) {i : Nat} (h : i ≤ p.length) :
    (runStarts p)[i]? = some (cumLen p i) := by
  simp [runStarts, List.getElem?_map, List.getElem?_range (by omega : i < p.length + 1)]

theorem runStarts_getElem?_none (p : Para) {i : Nat} (h : p.length + 1 ≤ i) :
    (runStarts p)[i]? = none := by
  apply List.getElem?_eq_none
  simp [runStarts_length p, h]

theorem bisectLeft_le_length (l : List Int) (v : Int) : bisectLeft l v ≤ l.length :=
  (List.takeWhile_sublist _).length_le

theorem get_lt_of_lt_bisectLeft {l : List Int} {v : Int} {j : Nat} {w : Int}
    (hj : j < bisectLeft l v) (hg : l[j]? = some w) : w < v := by
  induction l generalizing j with
  | nil => simp at hg
  | cons x xs ih =>
    unfold bisectLeft at hj
    simp only [List.takeWhile] at hj
    by_cases hx : x < v
    · simp only [hx, decide_eq_true_eq, if_pos, List.length_cons] at hj
      cases j with
      | zero => simp at hg; omega
      | succ j' =>
        simp only [List.getElem?_cons_succ] at hg
        exact ih (by simpa [bisectLeft] using Nat.lt_of_succ_lt_succ hj) hg
    · simp [hx] at hj

theorem bisectLeft_stop {l : List Int} {v : Int} (h : bisectLeft l v < l.length) :
    ∃ w, l[bisectLeft l v]? = some w ∧ v ≤ w := by
  induction l with
  | nil => simp at h
  | cons x xs ih =>
    by_cases hx : x < v
    · have hb : bisectLeft (x :: xs) v = bisectLeft xs v + 1 := by
        simp [bisectLeft, List.takeWhile, hx]
      have h' : bisectLeft xs v < xs.length := by
        rw [hb] at h
        simpa using h
      obtain ⟨w, hw, hvw⟩ := ih h'
      exact ⟨w, by simpa [hb] using hw, hvw⟩
    · have hb : bisectLeft (x :: xs) v = 0 := by
        simp [bisectLeft, List.takeWhile, hx]
      exact ⟨x, by simp [hb], le_of_not_lt hx⟩

theorem bisectLeft_le_of_ge {l : List Int} {v : Int} {j : Nat} {w : Int}
    (hg : l[j]? = some w) (hvw : v ≤ w) : bisectLeft l v ≤ j := by
  by_contra hc
  have := get_lt_of_lt_bisectLeft (Nat.lt_of_not_le hc) hg
  omega

theorem bisectLeft_eq_of {l : List Int} {v : Int} {idx : Nat}
    (hlt : ∀ j w, j < idx → l[j]? = some w → w < v)
    (hstop : idx = l.length ∨ ∃ w, l[idx]? = some w ∧ v ≤ w) :
    bisectLeft l v = idx := by
  have hle : bisectLeft l v ≤ idx := by
    rcases hstop with h | ⟨w, hw, hvw⟩
    · rw [h]; exact bisectLeft_le_length l v
    · exact bisectLeft_le_of_ge hw hvw
  rcases Nat.lt_or_ge (bisectLeft l v) idx with h | h
  · exfalso
    have hidx : idx ≤ l.length := by
      rcases hstop with h' | ⟨w, hw, _⟩
      · omega
      · have : idx < l.length := by
          by_contra hc
          simp [List.getElem?_eq_none (Nat.le_of_not_lt hc)] at hw
        omega
    have hb : bisectLeft l v < l.length := by omega
    obtain ⟨w, hw, hvw⟩ := bisectLeft_stop hb
    have := hlt _ _ h hw
    omega
  · omega

theorem bisectLeft_mono (l : List Int) {v w : Int} (h : v ≤ w) :
    bisectLeft l v ≤ bisectLeft l w := by
  induction l with
  | nil => simp [bisectLeft]
  | cons x xs ih =>
    by_cases hx : x < v
    · have hxw : x < w := by omega
      have h1 : bisectLeft (x :: xs) v = bisectLeft xs v + 1 := by
        simp [bisectLeft, List.takeWhile, hx]
      have h2 : bisectLeft (x :: xs) w = bisectLeft xs w + 1 := by
        simp [bisectLeft, List.takeWhile, hxw]
      omega
    · have h1 : bisectLeft (x :: xs) v = 0 := by
        simp [bisectLeft, List.takeWhile, hx]
      omega

theorem listPyGet_natCast {α : Type} (l : List α) (n : Nat) :
    listPyGet l (n : Int) = l[n]? := by
  simp [listPyGet]

theorem listPyGet_natCast_sub_one {α : Type} (l : List α) {n : Nat} (h : 1 ≤ n) :
    listPyGet l ((n : Int) - 1) = l[n - 1]? := by
  have h0 : (0 : Int) ≤ (n : Int) - 1 := by omega
  simp only [listPyGet, h0, if_pos, List.get?_eq_getElem?]
  congr 1
  omega

/-! ### Split refinement: a paragraph obtained from another solely by
splitting runs in place (each original run becomes a nonempty block of
consecutive runs carrying the same `rPr` whose texts concatenate to the
original text).  This is the shape of every mutation performed by
`isolate_para_runs_by_span` and hence by `find`. -/

theorem SplitRefines.refl (p : Para) : SplitRefines p p := by
  induction p with
  | nil => exact SplitRefines.nil
  | cons r q ih =>
    have : SplitRefines (r :: q) ([r] ++ q) :=
      SplitRefines.cons r [r] q q (by simp) (by simp) (by simp) ih
    simpa using this

theorem SplitRefines.paraText_eq {p q : Para} (h : SplitRefines p q) :
    paraText q = paraText p := by
  induction h with
  | nil => rfl
  | cons r block p' q' hne hrpr htext _ ih =>
    simp only [paraText, List.map_append, List.flatten_append, List.map_cons, List.flatten_cons]
    rw [htext]
    simp only [paraText] at ih
    rw [ih]

theorem SplitRefines.length_le {p q : Para} (h : SplitRefines p q) : p.length ≤ q.length := by
  induction h with
  | nil => simp
  | cons r block p' q' hne _ _ _ ih =>
    have : 1 ≤ block.length := List.length_pos.mpr hne
    simp only [List.length_cons, List.length_append]
    omega

theorem SplitRefines.ne_nil {p q : Para} (h : SplitRefines p q) (hp : p ≠ []) : q ≠ [] := by
  cases h with
  | nil => exact absurd rfl hp
  | cons r block p' q' hne _ _ _ =>
    intro hq
    rcases List.append_eq_nil.mp hq with ⟨hb, _⟩
    exact hne hb

theorem SplitRefines.rpr_mem {p q : Para} (h : SplitRefines p q) :
    ∀ x ∈ q, ∃ y ∈ p, x.rpr = y.rpr := by
  induction h with
  | nil => simp
  | cons r block p' q' hne hrpr htext _ ih =>
    intro x hx
    rcases List.mem_append.mp hx with hx | hx
    · exact ⟨r, by simp, hrpr x hx⟩
    · obtain ⟨y, hy, hxy⟩ := ih x hx
      exact ⟨y, by simp [hy], hxy⟩

theorem SplitRefines.append_inv {a b q : Para} (h : SplitRefines (a ++ b) q) :
    ∃ q1 q2, q = q1 ++ q2 ∧ SplitRefines a q1 ∧ SplitRefines b q2 := by
  induction a generalizing q with
  | nil => exact ⟨[], q, by simpa using h, SplitRefines.nil, by simpa using h⟩
  | cons x xs ih =>
    cases h with
    | cons r block p' q' hne hrpr htext htail =>
      obtain ⟨q1, q2, hq, h1, h2⟩ := ih htail
      exact ⟨block ++ q1, q2, by simp [hq],
        SplitRefines.cons x block xs q1 hne hrpr htext h1, h2⟩

theorem SplitRefines.append {p q p' q' : Para}
    (h1 : SplitRefines p q) (h2 : SplitRefines p' q') :
    SplitRefines (p ++ p') (q ++ q') := by
  induction h1 with
  | nil => simpa using h2
  | cons r block a b hne hrpr htext _ ih =>
    have := SplitRefines.cons r block (a ++ p') (b ++ q') hne hrpr htext ih
    simpa using this

theorem SplitRefines.trans {p q r : Para}
    (h1 : SplitRefines p q) (h2 : SplitRefines q r) : SplitRefines p r := by
  induction h1 generalizing r with
  | nil => cases h2; exact SplitRefines.nil
  | cons x block a b hne hrpr htext htail ih =>
    obtain ⟨r1, r2, hr, hb1, hb2⟩ := SplitRefines.append_inv h2
    subst hr
    refine SplitRefines.cons x r1 a r2 ?_ ?_ ?_ (ih hb2)
    · exact SplitRefines.ne_nil hb1 hne
    · intro z hz
      obtain ⟨y, hy, hzy⟩ := SplitRefines.rpr_mem hb1 z hz
      rw [hzy, hrpr y hy]
    · calc (r1.map Run.text).flatten = paraText r1 := rfl
        _ = paraText block := SplitRefines.paraText_eq hb1
        _ = x.text := htext

theorem SplitRefines.split_at {p : Para} {j : Nat} {r a b : Run}
    (hg : p[j]? = some r) (htext : a.text ++ b.text = r.text)
    (ha : a.rpr = r.rpr) (hb : b.rpr = r.rpr) :
    SplitRefines p (p.take j ++ a :: b :: p.drop (j + 1)) := by
  have hj : j < p.length := (List.getElem?_eq_some.mp hg).1
  have hpr : p[j] = r := by
    have := List.getElem?_eq_getElem hj
    rw [this] at hg
    exact Option.some.inj hg
  have hdecomp : p = p.take j ++ r :: p.drop (j + 1) := by
    conv_lhs => rw [← List.take_append_drop j p]
    congr 1
    rw [← hpr]
    exact (List.get_drop_eq_drop p j hj).symm
  conv_lhs => rw [hdecomp]
  refine SplitRefines.append (SplitRefines.refl _) ?_
  have : SplitRefines (r :: p.drop (j + 1)) ([a, b] ++ p.drop (j + 1)) := by
    refine SplitRefines.cons r [a, b] _ _ (by simp) ?_ (by simp [htext]) (SplitRefines.refl _)
    intro z hz
    rcases List.mem_pair.mp hz with h | h <;> subst h <;> assumption
  simpa using this

/-! ### Effect of one in-place run split on lengths, prefix sums and
prefixes of the run list -/

theorem splitShape_length {p : Para} {j : Nat} (a b : Run) (hj : j < p.length) :
    (p.take j ++ a :: b :: p.drop (j + 1)).length = p.length + 1 := by
  simp [List.length_append, List.length_take]
  omega

theorem splitShape_take {p : Para} {j : Nat} (a b : Run) {i : Nat} (hi : i ≤ j)
    (hj : j < p.length) :
    (p.take j ++ a :: b :: p.drop (j + 1)).take i = p.take i := by
  rw [List.take_append_of_le_length (by simp [List.length_take]; omega)]
  rw [List.take_take]
  simp [Nat.min_eq_left hi]

theorem splitShape_cumLen_le {p : Para} {j : Nat} (a b : Run) {i : Nat} (hi : i ≤ j)
    (hj : j < p.length) :
    cumLen (p.take j ++ a :: b :: p.drop (j + 1)) i = cumLen p i := by
  unfold cumLen
  rw [splitShape_take a b hi hj]

theorem splitShape_cumLen_mid {p : Para} {j : Nat} {r a b : Run}
    (hg : p[j]? = some r) (_ : a.text ++ b.text = r.text) :
    cumLen (p.take j ++ a :: b :: p.drop (j + 1)) (j + 1) = cumLen p j + a.text.length := by
  have hj : j < p.length := (List.getElem?_eq_some.mp hg).1
  have hlen : (p.take j).length = j := by simp [List.length_take]; omega
  have ht : (p.take j ++ a :: b :: p.drop (j + 1)).take (j + 1) = p.take j ++ [a] := by
    have := @List.take_append _ (p.take j) (a :: b :: p.drop (j + 1)) 1
    rw [hlen] at this
    simpa using this
  unfold cumLen
  rw [ht, sumLens_append]
  simp [sumLens]

theorem splitShape_cumLen_shift {p : Para} {j : Nat} {r a b : Run}
    (hg : p[j]? = some r) (htext : a.text ++ b.text = r.text) {i : Nat} (hi : j + 1 ≤ i) :
    cumLen (p.take j ++ a :: b :: p.drop (j + 1)) (i + 1) = cumLen p i := by
  have hj : j < p.length := (List.getElem?_eq_some.mp hg).1
  have hpr : p[j] = r := by
    have := List.getElem?_eq_getElem hj
    rw [this] at hg
    exact Option.some.inj hg
  have hlen : (p.take j).length = j := by simp [List.length_take]; omega
  have hq : (p.take j ++ a :: b :: p.drop (j + 1)).take (i + 1)
      = p.take j ++ a :: b :: (p.drop (j + 1)).take (i - 1 - j) := by
    have h1 := @List.take_append _ (p.take j) (a :: b :: p.drop (j + 1)) (i + 1 - j)
    rw [hlen] at h1
    have h2 : j + (i + 1 - j) = i + 1 := by omega
    rw [h2] at h1
    rw [h1]
    congr 1
    have h3 : i + 1 - j = (i - 1 - j) + 2 := by omega
    rw [h3]
    rfl
  have hp : p.take i = p.take (j + 1) ++ (p.drop (j + 1)).take (i - (j + 1)) := by
    have h1 := @List.take_append _ (p.take (j + 1)) (p.drop (j + 1)) (i - (j + 1))
    rw [List.take_append_drop] at h1
    have hlen1 : (p.take (j + 1)).length = j + 1 := by simp [List.length_take]; omega
    rw [hlen1] at h1
    have h2 : j + 1 + (i - (j + 1)) = i := by omega
    rw [h2] at h1
    exact h1
  have hpj1 : p.take (j + 1) = p.take j ++ [r] := by
    rw [← hpr]
    simpa using (List.take_concat_get p j hj).symm
  unfold cumLen
  rw [hq, hp, hpj1]
  rw [sumLens_append, sumLens_append]
  have hij : i - 1 - j = i - (j + 1) := by omega
  rw [hij]
  have : sumLens (a :: b :: (p.drop (j + 1)).take (i - (j + 1)))
      = (a.text.length : Int) + b.text.length + sumLens ((p.drop (j + 1)).take (i - (j + 1))) := by
    simp [sumLens]
    ring
  have hr : sumLens [r] = (a.text.length : Int) + b.text.length := by
    simp [sumLens, ← htext]
  rw [this, sumLens_append, hr]
  ring

theorem splitShape_getElem_left {p : Para} {j : Nat} (a b : Run) (hj : j < p.length) :
    (p.take j ++ a :: b :: p.drop (j + 1))[j]? = some a := by
  have hlen : (p.take j).length = j := by
    simp only [List.length_take]
    omega
  rw [List.getElem?_append_right (by omega)]
  simp [hlen]

theorem splitShape_getElem_right {p : Para} {j : Nat} (a b : Run) (hj : j < p.length) :
    (p.take j ++ a :: b :: p.drop (j + 1))[j + 1]? = some b := by
  have hlen : (p.take j).length = j := by
    simp only [List.length_take]
    omega
  rw [List.getElem?_append_right (by omega)]
  have h1 : j + 1 - j ⊓ p.length = 1 := by omega
  simp [h1]

/-! ### Characterizations of `splitParaRun` and an explicit form of
`isolate_para_runs_by_span` for reasoning -/

theorem split_run_at_string_index_eq_none_iff (r : Run) (index : Int) :
    split_run_at_string_index r index = none ↔ index ≤ 0 ∨ (r.text.length : Int) ≤ index := by
  unfold split_run_at_string_index
  by_cases h : index ≤ 0 ∨ (r.text.length : Int) ≤ index <;> simp [h]

theorem splitParaRun_of_valid {p : Para} {j : Nat} {r : Run} (hg : p[j]? = some r)
    {index : Int} (h0 : 0 < index) (hl : index < (r.text.length : Int)) :
    splitParaRun p (j : Int) index =
      some (p.take j ++ { text := r.text.take index.toNat, rpr := r.rpr } ::
            { text := r.text.drop index.toNat, rpr := r.rpr } :: p.drop (j + 1)) := by
  unfold splitParaRun
  rw [listPyGet_natCast, hg, Option.some_bind]
  unfold split_run_at_string_index
  rw [if_neg (by omega), Option.some_bind]
  have hneg : ¬((j : Int) < 0) := by omega
  simp [hneg]

theorem splitParaRun_eq_some {p : Para} {k index : Int} {p' : Para}
    (h : splitParaRun p k index = some p') :
    ∃ (j : Nat) (r : Run), p[j]? = some r ∧ 0 < index ∧ index < (r.text.length : Int) ∧
      p' = p.take j ++ { text := r.text.take index.toNat, rpr := r.rpr } ::
           { text := r.text.drop index.toNat, rpr := r.rpr } :: p.drop (j + 1) ∧
      (0 ≤ k → (j : Int) = k) := by
  unfold splitParaRun at h
  rcases hk : listPyGet p k with _ | r
  · rw [hk, Option.none_bind] at h; exact absurd h (by simp)
  · rw [hk, Option.some_bind] at h
    rcases hs : split_run_at_string_index r index with _ | ab
    · rw [hs, Option.none_bind] at h; exact absurd h (by simp)
    · rw [hs, Option.some_bind] at h
      unfold split_run_at_string_index at hs
      by_cases hguard : index ≤ 0 ∨ (r.text.length : Int) ≤ index
      · rw [if_pos hguard] at hs; exact absurd hs (by simp)
      · rw [if_neg hguard] at hs
        push_neg at hguard
        refine ⟨if k < 0 then (k + p.length).toNat else k.toNat, r, ?_, hguard.1, hguard.2, ?_, ?_⟩
        · unfold listPyGet at hk
          by_cases h0 : 0 ≤ k
          · rw [if_pos h0] at hk
            rw [if_neg (by omega)]
            rw [← List.get?_eq_getElem?]
            exact hk
          · rw [if_neg h0] at hk
            by_cases h1 : 0 ≤ k + p.length
            · rw [if_pos h1] at hk
              rw [if_pos (by omega)]
              rw [← List.get?_eq_getElem?]
              exact hk
            · rw [if_neg h1] at hk; exact absurd hk (by simp)
        · have hsome := Option.some.inj h
          have hab := Option.some.inj hs
          rw [← hsome, ← hab]
        · intro h0
          rw [if_neg (by omega)]
          omega

theorem splitParaRun_splitRefines {p : Para} {k index : Int} {p' : Para}
    (h : splitParaRun p k index = some p') : SplitRefines p p' := by
  obtain ⟨j, r, hg, h0, hl, hp', _⟩ := splitParaRun_eq_some h
  rw [hp']
  exact SplitRefines.split_at hg (List.take_append_drop _ _) rfl rfl

theorem splitParaRun_paraText {p : Para} {k index : Int} {p' : Para}
    (h : splitParaRun p k index = some p') : paraText p' = paraText p :=
  (splitParaRun_splitRefines h).paraText_eq

theorem isolate_def (p : Para) (s e : Int) :
    isolate_para_runs_by_span p (s, e) =
      (listPyGet (runStarts p) ((bisectLeft (runStarts p) e : Nat) : Int)).bind (fun pEnd =>
        (if e ≠ pEnd then
            (listPyGet (runStarts p) ((bisectLeft (runStarts p) e : Int) - 1)).bind (fun pEnd1 =>
              splitParaRun p ((bisectLeft (runStarts p) e : Int) - 1) (e - pEnd1))
          else some p).bind (fun p1 =>
          (listPyGet (runStarts p) ((bisectLeft (runStarts p) s : Nat) : Int)).bind (fun pStart =>
            if s ≠ pStart then
              (listPyGet (runStarts p) ((bisectLeft (runStarts p) s : Int) - 1)).bind (fun pStart1 =>
                (splitParaRun p1 ((bisectLeft (runStarts p) s : Int) - 1) (s - pStart1)).bind (fun p2 =>
                  some (p2, bisectLeft (runStarts p) s, bisectLeft (runStarts p) e + 1)))
            else some (p1, bisectLeft (runStarts p) s, bisectLeft (runStarts p) e)))) := rfl

set_option maxHeartbeats 1000000

theorem isolate_spec {p : Para} {s e : Int} (hs : 0 ≤ s) (hse : s < e) (he : e ≤ sumLens p) :
    ∃ p' lo hi, isolate_para_runs_by_span p (s, e) = some (p', lo, hi) ∧
      paraText p' = paraText p ∧ SplitRefines p p' ∧
      p.length ≤ p'.length ∧ p'.length ≤ p.length + 2 ∧ hi ≤ p'.length ∧
      cumLen p' lo = s ∧ cumLen p' hi = e ∧
      bisectLeft (runStarts p') s = lo ∧ bisectLeft (runStarts p') e = hi ∧
      (∀ m : Nat, (∀ i, i ≤ m → cumLen p i ≤ s) → p'.take m = p.take m) := by
  set n := p.length with hn
  set ter := bisectLeft (runStarts p) e with hter
  set tsr := bisectLeft (runStarts p) s with htsr
  have hcn : cumLen p n = sumLens p := cumLen_of_len_le p (by omega)
  have hRSn : (runStarts p)[n]? = some (cumLen p n) := runStarts_getElem? p (le_refl n)
  have hter_n : ter ≤ n := bisectLeft_le_of_ge hRSn (by omega)
  have htsr_ter : tsr ≤ ter := bisectLeft_mono _ (le_of_lt hse)
  have htsr_n : tsr ≤ n := le_trans htsr_ter hter_n
  have hstop_e : e ≤ cumLen p ter := by
    obtain ⟨w, hw, hvw⟩ := bisectLeft_stop (l := runStarts p) (v := e)
      (by rw [runStarts_length]; omega)
    rw [runStarts_getElem? p hter_n] at hw
    have := Option.some.inj hw
    omega
  have hstop_s : s ≤ cumLen p tsr := by
    obtain ⟨w, hw, hvw⟩ := bisectLeft_stop (l := runStarts p) (v := s)
      (by rw [runStarts_length]; omega)
    rw [runStarts_getElem? p htsr_n] at hw
    have := Option.some.inj hw
    omega
  have hlt_e : ∀ j, j < ter → cumLen p j < e := by
    intro j hj
    exact get_lt_of_lt_bisectLeft hj (runStarts_getElem? p (by omega))
  have hlt_s : ∀ j, j < tsr → cumLen p j < s := by
    intro j hj
    exact get_lt_of_lt_bisectLeft hj (runStarts_getElem? p (by omega))
  have he_pos : 0 < e := by omega
  have hlook_e : listPyGet (runStarts p) ((ter : Nat) : Int) = some (cumLen p ter) := by
    rw [listPyGet_natCast, runStarts_getElem? p hter_n]
  have hlook_s : listPyGet (runStarts p) ((tsr : Nat) : Int) = some (cumLen p tsr) := by
    rw [listPyGet_natCast, runStarts_getElem? p htsr_n]
  -- end phase
  obtain ⟨p1, hEndEq, hT1, hSR1, hL1lo, hL1hi, hC2, hC3, hFr1⟩ :
      ∃ p1, (if e ≠ cumLen p ter then
          (listPyGet (runStarts p) ((ter : Int) - 1)).bind fun pEnd1 =>
            splitParaRun p ((ter : Int) - 1) (e - pEnd1)
        else some p) = some p1 ∧
        paraText p1 = paraText p ∧ SplitRefines p p1 ∧
        n ≤ p1.length ∧ p1.length ≤ n + 1 ∧
        (∀ i, i < ter → cumLen p1 i = cumLen p i) ∧ cumLen p1 ter = e ∧
        (∀ m : Nat, (∀ i, i ≤ m → cumLen p i ≤ s) → p1.take m = p.take m) := by
    by_cases hE : e = cumLen p ter
    · refine ⟨p, by rw [if_neg (by omega)], rfl, SplitRefines.refl p, le_refl _, by omega,
        fun i _ => rfl, hE.symm, fun m _ => rfl⟩
    · have hter1 : 1 ≤ ter := by
        by_contra hc
        have h0 : ter = 0 := by omega
        rw [h0, cumLen_zero] at hstop_e
        omega
      have hlt1 : cumLen p (ter - 1) < e := hlt_e (ter - 1) (by omega)
      have hter1n : ter - 1 < n := by omega
      have hg : p[ter - 1]? = some p[ter - 1] := List.getElem?_eq_getElem (by omega)
      set r := p[ter - 1] with hr
      have hrlen : (r.text.length : Int) = cumLen p ter - cumLen p (ter - 1) := by
        have := cumLen_succ p (ter - 1) r hg
        have hindex : ter - 1 + 1 = ter := by omega
        rw [hindex] at this
        omega
      have hd0 : 0 < e - cumLen p (ter - 1) := by omega
      have hdlen : e - cumLen p (ter - 1) < (r.text.length : Int) := by omega
      have hsplit := splitParaRun_of_valid hg hd0 hdlen
      have hcast : ((ter : Nat) : Int) - 1 = (((ter - 1 : Nat)) : Int) := by omega
      have hlook1 : listPyGet (runStarts p) ((ter : Int) - 1) = some (cumLen p (ter - 1)) := by
        rw [listPyGet_natCast_sub_one _ hter1, runStarts_getElem? p (by omega)]
      set d := e - cumLen p (ter - 1) with hd
      set a : Run := { text := r.text.take d.toNat, rpr := r.rpr } with ha
      set b : Run := { text := r.text.drop d.toNat, rpr := r.rpr } with hb
      set p1 := p.take (ter - 1) ++ a :: b :: p.drop (ter - 1 + 1) with hp1
      have habtext : a.text ++ b.text = r.text := List.take_append_drop _ _
      have halen : (a.text.length : Int) = d := by
        rw [ha]
        simp only [List.length_take]
        omega
      have hsplit2 : splitParaRun p ((ter : Int) - 1) d = some p1 := by
        rw [hcast]
        exact hsplit
      refine ⟨p1, ?_, ?_, ?_, ?_, ?_, ?_, ?_, ?_⟩
      · rw [if_pos (by omega), hlook1, Option.some_bind]
        exact hsplit2
      · exact splitParaRun_paraText hsplit2
      · exact splitParaRun_splitRefines hsplit2
      · rw [hp1, splitShape_length a b hter1n]; omega
      · rw [hp1, splitShape_length a b hter1n]
      · intro i hi
        exact splitShape_cumLen_le a b (by omega) hter1n
      · have hmid := splitShape_cumLen_mid hg habtext
        have hindex : ter - 1 + 1 = ter := by omega
        rw [hindex] at hmid
        rw [hp1, hindex, hmid]
        omega
      · intro m hm
        have hmter : m < ter := by
          by_contra hc
          have h1 := cumLen_mono p (Nat.le_of_not_lt hc)
          have h2 := hm m (le_refl m)
          omega
        rw [hp1]
        exact splitShape_take a b (by omega) hter1n
  -- start phase
  by_cases hS : s = cumLen p tsr
  · -- the start boundary is already aligned: no second split
    have htsr_lt : tsr < ter := by
      rcases Nat.lt_or_ge tsr ter with h | h
      · exact h
      · exfalso
        have : tsr = ter := by omega
        rw [this] at hS
        omega
    refine ⟨p1, tsr, ter, ?_, hT1, hSR1, by omega, by omega, by omega, ?_, hC3, ?_, ?_, hFr1⟩
    · rw [isolate_def, hlook_e, Option.some_bind, hEndEq, Option.some_bind, hlook_s,
        Option.some_bind, if_neg (by omega)]
    · rw [hC2 tsr htsr_lt]
      omega
    · apply bisectLeft_eq_of
      · intro j w hj hw
        rw [runStarts_getElem? p1 (by omega)] at hw
        have hww := Option.some.inj hw
        have := hC2 j (by omega)
        have := hlt_s j (by omega)
        omega
      · refine Or.inr ⟨cumLen p1 tsr, runStarts_getElem? p1 (by omega), ?_⟩
        rw [hC2 tsr htsr_lt]
        omega
    · apply bisectLeft_eq_of
      · intro j w hj hw
        rw [runStarts_getElem? p1 (by omega)] at hw
        have hww := Option.some.inj hw
        have := hC2 j (by omega)
        have := hlt_e j (by omega)
        omega
      · exact Or.inr ⟨cumLen p1 ter, runStarts_getElem? p1 (by omega), by omega⟩
  · -- second split at the start boundary
    have hslt : s < cumLen p tsr := lt_of_le_of_ne hstop_s (by omega)
    have htsr1 : 1 ≤ tsr := by
      by_contra hc
      have h0 : tsr = 0 := by omega
      rw [h0, cumLen_zero] at hslt
      omega
    have hlt1s : cumLen p (tsr - 1) < s := hlt_s (tsr - 1) (by omega)
    have htsr1n : tsr - 1 < p1.length := by omega
    have hg2 : p1[tsr - 1]? = some p1[tsr - 1] := List.getElem?_eq_getElem htsr1n
    set r2 := p1[tsr - 1] with hr2
    have hC1sub : cumLen p1 (tsr - 1) = cumLen p (tsr - 1) := hC2 _ (by omega)
    have hC1tsr : s < cumLen p1 tsr := by
      rcases Nat.lt_or_ge tsr ter with h | h
      · rw [hC2 tsr h]
        omega
      · have heq : tsr = ter := by omega
        rw [heq, hC3]
        omega
    have hr2len : (r2.text.length : Int) = cumLen p1 tsr - cumLen p1 (tsr - 1) := by
      have := cumLen_succ p1 (tsr - 1) r2 hg2
      have hindex : tsr - 1 + 1 = tsr := by omega
      rw [hindex] at this
      omega
    have hd0 : 0 < s - cumLen p (tsr - 1) := by omega
    have hdlen : s - cumLen p (tsr - 1) < (r2.text.length : Int) := by omega
    have hsplit := splitParaRun_of_valid hg2 hd0 hdlen
    have hcast2 : ((tsr : Nat) : Int) - 1 = (((tsr - 1 : Nat)) : Int) := by omega
    have hlook1s : listPyGet (runStarts p) ((tsr : Int) - 1) = some (cumLen p (tsr - 1)) := by
      rw [listPyGet_natCast_sub_one _ htsr1, runStarts_getElem? p (by omega)]
    set d2 := s - cumLen p (tsr - 1) with hd2
    set a2 : Run := { text := r2.text.take d2.toNat, rpr := r2.rpr } with ha2
    set b2 : Run := { text := r2.text.drop d2.toNat, rpr := r2.rpr } with hb2
    set p2 := p1.take (tsr - 1) ++ a2 :: b2 :: p1.drop (tsr - 1 + 1) with hp2
    have hab2text : a2.text ++ b2.text = r2.text := List.take_append_drop _ _
    have ha2len : (a2.text.length : Int) = d2 := by
      rw [ha2]
      simp only [List.length_take]
      omega
    have hsplit2 : splitParaRun p1 ((tsr : Int) - 1) d2 = some p2 := by
      rw [hcast2]
      exact hsplit
    have hp2len : p2.length = p1.length + 1 := by
      rw [hp2]
      exact splitShape_length a2 b2 htsr1n
    have hC2le : ∀ i, i ≤ tsr - 1 → cumLen p2 i = cumLen p1 i := by
      intro i hi
      rw [hp2]
      exact splitShape_cumLen_le a2 b2 hi htsr1n
    have hmid2 : cumLen p2 tsr = s := by
      have hmid := splitShape_cumLen_mid hg2 hab2text
      have hindex : tsr - 1 + 1 = tsr := by omega
      rw [hindex] at hmid
      rw [hp2, hindex, hmid, hC1sub]
      omega
    have hshift2 : ∀ i, tsr ≤ i → cumLen p2 (i + 1) = cumLen p1 i := by
      intro i hi
      have := splitShape_cumLen_shift hg2 hab2text (i := i) (by omega)
      have hindex : tsr - 1 + 1 = tsr := by omega
      rw [hindex] at this
      rw [hp2, hindex, this]
    refine ⟨p2, tsr, ter + 1, ?_, ?_, ?_, by omega, by omega, by omega, hmid2, ?_, ?_, ?_, ?_⟩
    · rw [isolate_def, hlook_e, Option.some_bind, hEndEq, Option.some_bind, hlook_s,
        Option.some_bind, if_pos (by omega), hlook1s, Option.some_bind, hsplit2,
        Option.some_bind]
    · rw [splitParaRun_paraText hsplit2, hT1]
    · exact SplitRefines.trans hSR1 (splitParaRun_splitRefines hsplit2)
    · rw [hshift2 ter (by omega), hC3]
    · apply bisectLeft_eq_of
      · intro j w hj hw
        rw [runStarts_getElem? p2 (by omega)] at hw
        have hww := Option.some.inj hw
        have := hC2le j (by omega)
        have := hC2 j (by omega)
        have := hlt_s j (by omega)
        omega
      · exact Or.inr ⟨cumLen p2 tsr, runStarts_getElem? p2 (by omega), by omega⟩
    · apply bisectLeft_eq_of
      · intro j w hj hw
        rw [runStarts_getElem? p2 (by omega)] at hw
        have hww := Option.some.inj hw
        rcases Nat.lt_or_ge j tsr with hcase | hcase
        · have := hC2le j (by omega)
          have := hC2 j (by omega)
          have := hlt_s j (by omega)
          omega
        · rcases Nat.eq_or_lt_of_le hcase with hcase2 | hcase2
          · rw [← hcase2] at hww
            omega
          · have hj1 : j = (j - 1) + 1 := by omega
            have h1 : cumLen p2 j = cumLen p1 (j - 1) := by
              rw [hj1]
              exact hshift2 (j - 1) (by omega)
            have h2 : cumLen p1 (j - 1) = cumLen p (j - 1) := hC2 (j - 1) (by omega)
            have := hlt_e (j - 1) (by omega)
            omega
      · refine Or.inr ⟨cumLen p2 (ter + 1), runStarts_getElem? p2 (by omega), ?_⟩
        rw [hshift2 ter (by omega), hC3]
    · intro m hm
      have hmtsr : m < tsr := by
        by_contra hc
        have h1 := cumLen_mono p (Nat.le_of_not_lt hc)
        have h2 := hm m (le_refl m)
        omega
      have hstep : p2.take m = p1.take m := by
        rw [hp2]
        exact splitShape_take a2 b2 (by omega) htsr1n
      rw [hstep]
      exact hFr1 m hm


theorem listPyGet_neg_one {α : Type} (l : List α) (h : l ≠ []) :
    listPyGet l (-1) = l[l.length - 1]? := by
  have hl : 1 ≤ l.length := List.length_pos.mpr h
  unfold listPyGet
  rw [if_neg (by omega), if_pos (by omega)]
  rw [List.get?_eq_getElem?]
  congr 1
  omega

theorem isolate_of_aligned {p : Para} {s e : Int} {lo hi : Nat}
    (hlo : bisectLeft (runStarts p) s = lo) (hhi : bisectLeft (runStarts p) e = hi)
    (hlo_le : lo ≤ p.length) (hhi_le : hi ≤ p.length)
    (hcs : cumLen p lo = s) (hce : cumLen p hi = e) :
    isolate_para_runs_by_span p (s, e) = some (p, lo, hi) := by
  rw [isolate_def, hlo, hhi]
  rw [listPyGet_natCast, runStarts_getElem? p hhi_le, Option.some_bind, if_neg (by omega),
    Option.some_bind, listPyGet_natCast, runStarts_getElem? p hlo_le, Option.some_bind,
    if_neg (by omega)]

theorem isolate_some_e_le {p : Para} {s e : Int} {res : Para × Nat × Nat}
    (h : isolate_para_runs_by_span p (s, e) = some res) : e ≤ sumLens p := by
  rw [isolate_def] at h
  set ter := bisectLeft (runStarts p) e with hter
  rcases hlk : listPyGet (runStarts p) ((ter : Nat) : Int) with _ | pEnd
  · rw [hlk, Option.none_bind] at h
    exact absurd h (by simp)
  · rw [hlk, Option.some_bind] at h
    have hterlen : ter ≤ p.length := by
      rw [listPyGet_natCast] at hlk
      by_contra hc
      rw [runStarts_getElem?_none p (by omega)] at hlk
      exact absurd hlk (by simp)
    have hpEnd : pEnd = cumLen p ter := by
      rw [listPyGet_natCast, runStarts_getElem? p hterlen] at hlk
      exact (Option.some.inj hlk).symm
    have htot : cumLen p ter ≤ sumLens p := by
      have h1 := cumLen_mono p hterlen
      rw [cumLen_of_len_le p (le_refl _)] at h1
      exact h1
    by_cases hE : e = pEnd
    · omega
    · rw [if_pos hE] at h
      rcases hlk1 : listPyGet (runStarts p) ((ter : Int) - 1) with _ | pEnd1
      · rw [hlk1, Option.none_bind, Option.none_bind] at h
        exact absurd h (by simp)
      · rw [hlk1, Option.some_bind] at h
        rcases hsp : splitParaRun p ((ter : Int) - 1) (e - pEnd1) with _ | p1
        · rw [hsp, Option.none_bind] at h
          exact absurd h (by simp)
        · obtain ⟨j, r, hg, h0, hl, _, hj⟩ := splitParaRun_eq_some hsp
          rcases Nat.eq_zero_or_pos ter with hter0 | hter1
          · -- wrap-around lookup: the split index is nonpositive, impossible
            exfalso
            rw [hter0] at hlk1
            have hne : runStarts p ≠ [] := by
              have := runStarts_length p
              intro hc
              rw [hc] at this
              simp at this
            rw [show ((0 : Nat) : Int) - 1 = -1 by omega, listPyGet_neg_one _ hne] at hlk1
            rw [runStarts_length] at hlk1
            have : (runStarts p)[p.length + 1 - 1]? = some (cumLen p p.length) := by
              rw [show p.length + 1 - 1 = p.length by omega]
              exact runStarts_getElem? p (le_refl _)
            rw [this] at hlk1
            have hpe1 : pEnd1 = cumLen p p.length := (Option.some.inj hlk1).symm
            -- bisect returned 0, so e ≤ (runStarts p)[0] = 0
            have hstop : e ≤ cumLen p 0 := by
              obtain ⟨w, hw, hvw⟩ := bisectLeft_stop (l := runStarts p) (v := e)
                (by rw [runStarts_length]; omega)
              rw [← hter, hter0] at hw
              rw [runStarts_getElem? p (by omega)] at hw
              have := Option.some.inj hw
              omega
            rw [cumLen_zero] at hstop
            have h1 := cumLen_nonneg p p.length
            omega
          · have hj' : (j : Int) = (ter : Int) - 1 := hj (by omega)
            have hjn : j = ter - 1 := by omega
            have hpe1 : pEnd1 = cumLen p (ter - 1) := by
              rw [listPyGet_natCast_sub_one _ hter1, runStarts_getElem? p (by omega)] at hlk1
              exact (Option.some.inj hlk1).symm
            have hsucc : cumLen p ter = cumLen p (ter - 1) + r.text.length := by
              have := cumLen_succ p (ter - 1) r (by rw [← hjn]; exact hg)
              rw [show ter - 1 + 1 = ter by omega] at this
              exact this
            omega

theorem isolate_empty_span {p : Para} {s : Int} {p' : Para} {lo hi : Nat}
    (h : isolate_para_runs_by_span p (s, s) = some (p', lo, hi)) :
    p' = p ∧ lo = bisectLeft (runStarts p) s ∧ hi = lo := by
  rw [isolate_def] at h
  set b := bisectLeft (runStarts p) s with hb
  rcases hlk : listPyGet (runStarts p) ((b : Nat) : Int) with _ | pEnd
  · rw [hlk, Option.none_bind] at h
    exact absurd h (by simp)
  · rw [hlk, Option.some_bind] at h
    by_cases hE : s = pEnd
    · rw [if_neg (by omega), Option.some_bind, Option.some_bind, if_neg (by omega)] at h
      have hinj := Option.some.inj h
      have hp : p = p' := congrArg Prod.fst hinj
      have hl : b = lo := congrArg (fun x => x.2.1) hinj
      have hh : b = hi := congrArg (fun x => x.2.2) hinj
      exact ⟨hp.symm, hl.symm, by omega⟩
    · rw [if_pos (by omega)] at h
      rcases hlk1 : listPyGet (runStarts p) ((b : Int) - 1) with _ | pEnd1
      · rw [hlk1, Option.none_bind, Option.none_bind] at h
        exact absurd h (by simp)
      · rw [hlk1, Option.some_bind] at h
        rcases hsp : splitParaRun p ((b : Int) - 1) (s - pEnd1) with _ | p1
        · rw [hsp, Option.none_bind] at h
          exact absurd h (by simp)
        · exfalso
          rw [hsp, Option.some_bind, Option.some_bind, if_pos (by omega),
            Option.some_bind] at h
          obtain ⟨j, r, hgj, h0, hl, hp1shape, hjk⟩ := splitParaRun_eq_some hsp
          rcases Nat.eq_zero_or_pos b with hb0 | hb1
          · -- bisect returned 0: s ≤ 0, yet the wrap-around split index s - sumLens p
            -- was positive, impossible
            rw [hb0] at hlk1
            have hne : runStarts p ≠ [] := by
              have hrs := runStarts_length p
              intro hc
              rw [hc] at hrs
              simp at hrs
            rw [show ((0 : Nat) : Int) - 1 = -1 by omega, listPyGet_neg_one _ hne] at hlk1
            rw [runStarts_length] at hlk1
            have hlast : (runStarts p)[p.length + 1 - 1]? = some (cumLen p p.length) := by
              rw [show p.length + 1 - 1 = p.length by omega]
              exact runStarts_getElem? p (le_refl _)
            rw [hlast] at hlk1
            have hpe1 : pEnd1 = cumLen p p.length := (Option.some.inj hlk1).symm
            have hstop : s ≤ cumLen p 0 := by
              obtain ⟨w, hw, hvw⟩ := bisectLeft_stop (l := runStarts p) (v := s)
                (by rw [runStarts_length]; omega)
              rw [← hb, hb0, runStarts_getElem? p (by omega)] at hw
              have := Option.some.inj hw
              omega
            rw [cumLen_zero] at hstop
            have hnn := cumLen_nonneg p p.length
            omega
          · have hj' : (j : Int) = (b : Int) - 1 := hjk (by omega)
            have hjlt : j < p.length := (List.getElem?_eq_some.mp hgj).1
            set a : Run := { text := r.text.take (s - pEnd1).toNat, rpr := r.rpr } with ha
            set b2 : Run := { text := r.text.drop (s - pEnd1).toNat, rpr := r.rpr } with hb2
            have halen : (a.text.length : Int) = s - pEnd1 := by
              rw [ha]
              simp only [List.length_take]
              omega
            have hgeta : p1[j]? = some a := by
              rw [hp1shape]
              exact splitShape_getElem_left a b2 hjlt
            have hlook2 : listPyGet p1 ((b : Int) - 1) = some a := by
              rw [listPyGet_natCast_sub_one _ hb1]
              rw [show b - 1 = j by omega]
              exact hgeta
            have hsplitnone : splitParaRun p1 ((b : Int) - 1) (s - pEnd1) = none := by
              unfold splitParaRun
              rw [hlook2, Option.some_bind]
              have : split_run_at_string_index a (s - pEnd1) = none := by
                rw [split_run_at_string_index_eq_none_iff]
                omega
              rw [this, Option.none_bind]
            rw [hsplitnone, Option.none_bind] at h
            exact absurd h (by simp)

theorem isolate_idempotent {p : Para} {s e : Int} {p' : Para} {lo hi : Nat}
    (hs : 0 ≤ s) (hse : s ≤ e)
    (h : isolate_para_runs_by_span p (s, e) = some (p', lo, hi)) :
    isolate_para_runs_by_span p' (s, e) = some (p', lo, hi) := by
  rcases eq_or_lt_of_le hse with heq | hlt
  · subst heq
    obtain ⟨hp, _, _⟩ := isolate_empty_span h
    rw [hp] at h ⊢
    exact h
  · have he := isolate_some_e_le h
    obtain ⟨p'', lo', hi', heq, _, _, _, _, hhi_le, hcs, hce, hbls, hble, _⟩ :=
      isolate_spec hs hlt he
    rw [heq] at h
    have h1 := Option.some.inj h
    have hp : p'' = p' := congrArg Prod.fst h1
    have hlo : lo' = lo := congrArg (fun x => x.2.1) h1
    have hhi : hi' = hi := congrArg (fun x => x.2.2) h1
    rw [← hp, ← hlo, ← hhi]
    have hlohi : lo' ≤ hi' := by
      by_contra hc
      have := cumLen_mono p'' (le_of_lt (Nat.lt_of_not_le hc))
      omega
    exact isolate_of_aligned hbls hble (by omega) hhi_le hcs hce

theorem paraText_append (x y : Para) : paraText (x ++ y) = paraText x ++ paraText y := by
  simp [paraText]

theorem paraText_take_length (p : Para) (i : Nat) :
    ((paraText (p.take i)).length : Int) = cumLen p i := by
  rw [← sumLens_eq_textLength]
  rfl

theorem para_decomp (p : Para) {lo hi : Nat} (hlohi : lo ≤ hi) :
    p = p.take lo ++ (p.drop lo).take (hi - lo) ++ p.drop hi := by
  have h1 : (p.drop lo).take (hi - lo) ++ (p.drop lo).drop (hi - lo) = p.drop lo :=
    List.take_append_drop _ _
  have h2 : (p.drop lo).drop (hi - lo) = p.drop hi := by
    rw [List.drop_drop]
    congr 1
    omega
  rw [h2] at h1
  rw [List.append_assoc, h1, List.take_append_drop]

theorem sliceText_eq_extract {p : Para} {lo hi : Nat} (hlohi : lo ≤ hi) (hhi : hi ≤ p.length) :
    sliceText p lo hi =
      ((paraText p).drop (cumLen p lo).toNat).take ((cumLen p hi) - (cumLen p lo)).toNat := by
  have hdec := para_decomp p hlohi
  have hmidlen : ((sliceText p lo hi).length : Int) = cumLen p hi - cumLen p lo := by
    unfold sliceText
    have h1 : (p.drop lo).take (hi - lo) = (p.take hi).drop lo := by
      rw [List.drop_take]
    rw [h1]
    have h2 : (p.take hi).take lo = p.take lo := by
      rw [List.take_take]
      congr 1
      omega
    have h3 : paraText (p.take hi) = paraText ((p.take hi).take lo) ++ paraText ((p.take hi).drop lo) := by
      rw [← paraText_append, List.take_append_drop]
    have h4 := paraText_take_length p hi
    have h5 := paraText_take_length p lo
    rw [h3, h2] at h4
    simp only [List.length_append, Nat.cast_add] at h4
    omega
  have hfull : paraText p = paraText (p.take lo) ++ sliceText p lo hi ++ paraText (p.drop hi) := by
    conv_lhs => rw [hdec]
    rw [paraText_append, paraText_append]
    rfl
  rw [hfull]
  have hA : (paraText (p.take lo)).length = (cumLen p lo).toNat := by
    have := paraText_take_length p lo
    omega
  rw [List.append_assoc]
  rw [List.drop_append_of_le_length (by omega), List.drop_of_length_le (by omega)]
  simp only [List.nil_append]
  rw [List.take_append_of_le_length (by omega)]
  rw [List.take_of_length_le (by omega)]

/-! ### Claim theorems -/

/-- C3 (amended): for every paragraph and every valid span `(s, e)` with
`s < e ≤ len(text)`, `isolate_para_runs_by_span` returns normally with a
pair `(lo, hi)` such that the concatenation of the texts of `runs[lo:hi]`
equals `text[s:e]`, the concatenation of all runs' texts is still the
original paragraph text, and at most two runs were split (the run count
grows by at most two).  The original claim also covered empty spans
`s = e`; an empty span whose position falls strictly inside a run makes
the function raise IndexError instead (see the counterexample), while an
empty span on an existing run boundary is returned without splitting. -/
theorem c3_isolate_span_correct (p : Para) (s e : Int)
    (hs : 0 ≤ s) (hse : s < e) (he : e ≤ ((paraText p).length : Int)) :
    ∃ p' lo hi, isolate_para_runs_by_span p (s, e) = some (p', lo, hi) ∧
      sliceText p' lo hi = ((paraText p).drop s.toNat).take (e - s).toNat ∧
      paraText p' = paraText p ∧
      p.length ≤ p'.length ∧ p'.length ≤ p.length + 2 := by
  have he' : e ≤ sumLens p := by
    rw [sumLens_eq_textLength]
    exact he
  obtain ⟨p', lo, hi, heq, htext, _, hlen1, hlen2, hhi_le, hcs, hce, _, _, _⟩ :=
    isolate_spec hs hse he'
  have hlohi : lo ≤ hi := by
    by_contra hc
    have := cumLen_mono p' (le_of_lt (Nat.lt_of_not_le hc))
    omega
  have hslice := sliceText_eq_extract hlohi hhi_le
  rw [hcs, hce, htext] at hslice
  exact ⟨p', lo, hi, heq, hslice, htext, hlen1, hlen2⟩

/-- C3 counterexample: the claim as stated covers every valid span
`0 ≤ s ≤ e ≤ len(text)`, but the empty span `(1, 1)`, which falls
strictly inside the single run "AB", makes `isolate_para_runs_by_span`
raise IndexError: the end-boundary pass splits the run at offset 1, and
the start-boundary pass then calls `split_run_at_string_index` on the
left half "A" at index 1 = its full length, which the run splitter
rejects.  The code does not return a pair at all, so the claimed
postcondition fails. -/
theorem c3_counterexample :
    isolate_para_runs_by_span [{ text := ['A', 'B'], rpr := some 0 }] (1, 1) = none := by
  rfl

theorem c3_witness :
    ∃ p' lo hi,
      isolate_para_runs_by_span
        [{ text := "Hel".toList, rpr := some 0 }, { text := "lo W".toList, rpr := some 1 },
         { text := "orld".toList, rpr := some 2 }] (4, 8) = some (p', lo, hi) ∧
      sliceText p' lo hi =
        ((paraText [{ text := "Hel".toList, rpr := some 0 }, { text := "lo W".toList, rpr := some 1 },
          { text := "orld".toList, rpr := some 2 }]).drop (4 : Int).toNat).take ((8 - 4 : Int)).toNat ∧
      paraText p' = paraText [{ text := "Hel".toList, rpr := some 0 },
        { text := "lo W".toList, rpr := some 1 }, { text := "orld".toList, rpr := some 2 }] ∧
      (3 : Nat) ≤ p'.length ∧ p'.length ≤ 3 + 2 :=
  c3_isolate_span_correct _ 4 8 (by decide) (by decide) (by decide)

/-- C7: calling `isolate_para_runs_by_span` twice in succession with the
same valid span returns the same pair `(lo, hi)` and performs no
additional split: the second call returns the paragraph exactly as the
first call left it. -/
theorem c7_isolate_span_idempotent (p : Para) (s e : Int) (p' : Para) (lo hi : Nat)
    (hs : 0 ≤ s) (hse : s ≤ e)
    (h : isolate_para_runs_by_span p (s, e) = some (p', lo, hi)) :
    isolate_para_runs_by_span p' (s, e) = some (p', lo, hi) :=
  isolate_idempotent hs hse h

theorem c7_witness :
    isolate_para_runs_by_span
      [{ text := ['A'], rpr := some 0 }, { text := ['B'], rpr := some 0 }] (0, 1) =
      some ([{ text := ['A'], rpr := some 0 }, { text := ['B'], rpr := some 0 }], 0, 1) :=
  c7_isolate_span_idempotent [{ text := ['A', 'B'], rpr := some 0 }] 0 1 _ 0 1
    (by decide) (by decide) (by rfl)

/-- C9: `split_run_at_string_index(run, index)` fails (raises the
IndexError that plays the spec's RangeError role) exactly when the index
is not strictly inside `(0, len(run.text))`; in particular index `0` and
index `len(run.text)` both fail.  On failure the guard fires before any
mutation, which the embedding reflects by producing no result at all. -/
theorem c9_split_run_range_error (r : Run) (index : Int) :
    (split_run_at_string_index r index = none ↔
      index ≤ 0 ∨ (r.text.length : Int) ≤ index) ∧
    split_run_at_string_index r 0 = none ∧
    split_run_at_string_index r (r.text.length : Int) = none := by
  refine ⟨split_run_at_string_index_eq_none_iff r index, ?_, ?_⟩
  · rw [split_run_at_string_index_eq_none_iff]
    left
    omega
  · rw [split_run_at_string_index_eq_none_iff]
    right
    omega

/-- C10: when `finds` and `replaces` have different lengths,
`find_and_replace` raises no error: the loop runs over
`zip(finds, replaces)`, so the call behaves exactly like the call on the
first `min(len(finds), len(replaces))` pattern/template pairs, the excess
entries of the longer sequence being silently ignored. -/
theorem c10_find_and_replace_zip_truncates (compile : List Char → PatternSem) (p : Para)
    (finds replaces : List (List Char)) :
    find_and_replace compile p finds replaces =
      find_and_replace compile p
        (finds.take (min finds.length replaces.length))
        (replaces.take (min finds.length replaces.length)) := by
  unfold find_and_replace
  rw [← List.zip_eq_zip_take_min]

/-- C1 (the code evaluated at the claim's scenario): on the Scenario B
paragraph ("A" bold, "B" italic, "C" plain) with pattern `(A)(B)(C)` and
template `\3\1\2`, `find_and_replace` does not produce the claimed three
runs "C", "A", "B": it raises IndexError.  The provenance loop iterates
over `groups` including `groups[0]` (the overall run range itself), so
`fr` jumps to the end of the whole match at once and the loop then reads
`paragraph.r_lst[3]` on a three-run paragraph — contradicting the loop's
own comment ("find the rPr of the first run in the span that is not in
one of the groups; if no such run, give None"). -/
theorem c1_scenarioB_raises :
    find_and_replace (fun _ => semABC) paraScenarioB
      ["(A)(B)(C)".toList] ["\\3\\1\\2".toList] = none := by
  rfl

/-- C4 (the code evaluated at a match with a non-participating group):
`find` on the one-run paragraph "A" with pattern `(A)|(B)` — one match,
`regs = [(0,1), (0,1), (-1,-1)]` — raises IndexError instead of skipping
the absent group: the `(-1,-1)` span is passed unfiltered to
`isolate_para_runs_by_span`, whose end-boundary pass wraps around to
`r_lst[-1]` and calls the run splitter with the negative index
`-1 - len(text)`, which raises. -/
theorem c4_unmatched_group_raises :
    findCore [{ text := ['A'], rpr := some 0 }] [[(0, 1), (0, 1), (-1, -1)]] = none := by
  rfl

/-- C5 (the code evaluated where the claim picks the wrong run): on
paragraph "AXBY" (handles 0,1,2,3) with pattern `(A)XB` and the pure
literal template "Z", the claim says the literal replacement run carries
the handle of the first run of the match not inside any group — run "X",
handle 1.  The code instead carries the formatting of run "Y", handle 3,
which lies after the match: the provenance loop consumes the whole match
range via `groups[0]` and then reads `r_lst[3]` — and, the new run's
`rPr` being installed by lxml `replace`, which moves the element out of
its holder, the surviving run "Y" is stripped of its own formatting in
the bargain. -/
theorem c5_literal_provenance_wrong :
    find_and_replace (fun _ => semAXB) paraAXBY ["(A)XB".toList] ["Z".toList] =
      some [{ text := ['Z'], rpr := some 3 }, { text := ['Y'], rpr := none }] := by
  rfl

theorem optionMapM_length {α β : Type} {f : α → Option β} :
    ∀ {l : List α} {l' : List β}, l.mapM f = some l' → l'.length = l.length := by
  intro l
  induction l with
  | nil =>
    intro l' h
    rw [List.mapM_nil] at h
    have := Option.some.inj h
    simp [← this]
  | cons a t ih =>
    intro l' h
    rw [List.mapM_cons] at h
    rcases hfa : f a with _ | b
    · rw [hfa] at h
      exact absurd h (by simp [Option.bind])
    · rw [hfa] at h
      rcases hmt : t.mapM f with _ | bs
      · rw [hmt] at h
        exact absurd h (by simp [Option.bind])
      · rw [hmt] at h
        have hh : b :: bs = l' := by
          simpa using h
        rw [← hh]
        simp [ih hmt]

theorem insertLoop_pre {lo : Nat} :
    ∀ (rs : List Run) (pre suf : Para), pre.length = lo + 1 →
      rs.foldl (fun acc r => insertAfterIdx acc lo r) (pre ++ suf) = pre ++ rs.reverse ++ suf := by
  intro rs
  induction rs with
  | nil => intro pre suf _; simp
  | cons r rest ih =>
    intro pre suf hpre
    have hstep : insertAfterIdx (pre ++ suf) lo r = pre ++ r :: suf := by
      unfold insertAfterIdx
      rw [List.take_append_of_le_length (by omega), List.drop_append_of_le_length (by omega)]
      rw [List.take_of_length_le (by omega), List.drop_of_length_le (by omega)]
      simp
    rw [List.foldl_cons, hstep, ih pre (r :: suf) hpre]
    simp

theorem insertLoop_eq {q : Para} {lo : Nat} (hlo : lo < q.length) (rs : List Run) :
    rs.foldl (fun acc r => insertAfterIdx acc lo r) q =
      q.take (lo + 1) ++ rs.reverse ++ q.drop (lo + 1) := by
  have hq : q = q.take (lo + 1) ++ q.drop (lo + 1) := (List.take_append_drop _ _).symm
  have hlen : (q.take (lo + 1)).length = lo + 1 := by
    simp only [List.length_take]
    omega
  conv_lhs => rw [hq]
  exact insertLoop_pre rs _ _ hlen

theorem isolate_splitRefines {p : Para} {sp : Int × Int} {q : Para} {lo hi : Nat}
    (h : isolate_para_runs_by_span p sp = some (q, lo, hi)) :
    SplitRefines p q ∧ paraText q = paraText p := by
  obtain ⟨s, e⟩ := sp
  rw [isolate_def] at h
  rcases h1 : listPyGet (runStarts p) ((bisectLeft (runStarts p) e : Nat) : Int) with _ | pEnd
  · rw [h1, Option.none_bind] at h
    exact absurd h (by simp)
  · rw [h1, Option.some_bind] at h
    rcases h2 : (if e ≠ pEnd then
        (listPyGet (runStarts p) ((bisectLeft (runStarts p) e : Int) - 1)).bind fun pEnd1 =>
          splitParaRun p ((bisectLeft (runStarts p) e : Int) - 1) (e - pEnd1)
      else some p) with _ | p1
    · rw [h2, Option.none_bind] at h
      exact absurd h (by simp)
    · rw [h2, Option.some_bind] at h
      have hSR1 : SplitRefines p p1 := by
        by_cases hE : e ≠ pEnd
        · rw [if_pos hE] at h2
          rcases h3 : listPyGet (runStarts p) ((bisectLeft (runStarts p) e : Int) - 1)
            with _ | pEnd1
          · rw [h3, Option.none_bind] at h2
            exact absurd h2 (by simp)
          · rw [h3, Option.some_bind] at h2
            exact splitParaRun_splitRefines h2
        · rw [if_neg hE] at h2
          have hp : p = p1 := Option.some.inj h2
          rw [← hp]
          exact SplitRefines.refl p
      rcases h4 : listPyGet (runStarts p) ((bisectLeft (runStarts p) s : Nat) : Int)
        with _ | pStart
      · rw [h4, Option.none_bind] at h
        exact absurd h (by simp)
      · rw [h4, Option.some_bind] at h
        by_cases hS : s ≠ pStart
        · rw [if_pos hS] at h
          rcases h5 : listPyGet (runStarts p) ((bisectLeft (runStarts p) s : Int) - 1)
            with _ | pStart1
          · rw [h5, Option.none_bind] at h
            exact absurd h (by simp)
          · rw [h5, Option.some_bind] at h
            rcases h6 : splitParaRun p1 ((bisectLeft (runStarts p) s : Int) - 1) (s - pStart1)
              with _ | p2
            · rw [h6, Option.none_bind] at h
              exact absurd h (by simp)
            · rw [h6, Option.some_bind] at h
              have hq : p2 = q := congrArg Prod.fst (Option.some.inj h)
              have hSR2 := splitParaRun_splitRefines h6
              rw [hq] at hSR2
              have hSR := hSR1.trans hSR2
              exact ⟨hSR, hSR.paraText_eq⟩
        · rw [if_neg hS] at h
          have hq : p1 = q := congrArg Prod.fst (Option.some.inj h)
          rw [hq] at hSR1
          exact ⟨hSR1, hSR1.paraText_eq⟩

theorem findGroupsFold_splitRefines :
    ∀ (gs : List (Int × Int)) (st : Para × List (Nat × Nat)) (res : Para × List (Nat × Nat)),
      gs.foldlM
        (fun (st : Para × List (Nat × Nat)) g =>
          (isolate_para_runs_by_span st.1 g).bind fun r => some (r.1, st.2 ++ [r.2]))
        st = some res →
      SplitRefines st.1 res.1 ∧ paraText res.1 = paraText st.1 := by
  intro gs
  induction gs with
  | nil =>
    intro st res h
    rw [List.foldlM_nil] at h
    have := Option.some.inj h
    rw [← this]
    exact ⟨SplitRefines.refl _, rfl⟩
  | cons g rest ih =>
    intro st res h
    rw [List.foldlM_cons] at h
    rcases h1 : isolate_para_runs_by_span st.1 g with _ | r
    · rw [h1] at h
      exact absurd h (by simp [Option.bind])
    · rw [h1] at h
      simp only [Option.some_bind] at h
      obtain ⟨hSR1, hT1⟩ := @isolate_splitRefines st.1 g r.1 r.2.1 r.2.2 (by rw [h1])
      obtain ⟨hSR2, hT2⟩ := ih (r.1, st.2 ++ [r.2]) res h
      exact ⟨hSR1.trans hSR2, by rw [hT2, hT1]⟩

theorem findMatchFold_splitRefines :
    ∀ (ms : List (List (Int × Int)))
      (acc res : Para × List (Nat × Nat) × List (List (Nat × Nat))),
      ms.foldlM
        (fun (acc : Para × List (Nat × Nat) × List (List (Nat × Nat))) regs =>
          match regs with
          | [] => none
          | overall :: grps =>
            (isolate_para_runs_by_span acc.1 overall).bind fun r1 =>
              let q1 := r1.1
              let sp := r1.2
              (grps.foldlM
                (fun (st : Para × List (Nat × Nat)) g =>
                  (isolate_para_runs_by_span st.1 g).bind fun r =>
                    some (r.1, st.2 ++ [r.2]))
                (q1, [])).bind fun r2 =>
                let q2 := r2.1
                let shift := q2.length - q1.length
                let spAdj : Nat × Nat := (sp.1, sp.2 + shift)
                some (q2, acc.2.1 ++ [spAdj], acc.2.2 ++ [spAdj :: r2.2]))
        acc = some res →
      SplitRefines acc.1 res.1 ∧ paraText res.1 = paraText acc.1 := by
  intro ms
  induction ms with
  | nil =>
    intro acc res h
    rw [List.foldlM_nil] at h
    have := Option.some.inj h
    rw [← this]
    exact ⟨SplitRefines.refl _, rfl⟩
  | cons regs rest ih =>
    intro acc res h
    rw [List.foldlM_cons] at h
    rcases regs with _ | ⟨overall, grps⟩
    · exact absurd h (by simp [Option.bind])
    · dsimp only at h
      rcases h1 : isolate_para_runs_by_span acc.1 overall with _ | r1
      · rw [h1] at h
        exact absurd h (by simp [Option.bind])
      · rw [h1] at h
        simp only [Option.some_bind] at h
        rcases h2 : (grps.foldlM
            (fun (st : Para × List (Nat × Nat)) g =>
              (isolate_para_runs_by_span st.1 g).bind fun r =>
                some (r.1, st.2 ++ [r.2]))
            (r1.1, [])) with _ | r2
        · rw [h2] at h
          exact absurd h (by simp [Option.bind])
        · rw [h2] at h
          simp only [Option.some_bind] at h
          obtain ⟨hSR1, hT1⟩ := @isolate_splitRefines acc.1 overall r1.1 r1.2.1 r1.2.2 (by rw [h1])
          obtain ⟨hSR2, hT2⟩ := findGroupsFold_splitRefines grps (r1.1, []) r2 h2
          obtain ⟨hSR3, hT3⟩ := ih _ res h
          refine ⟨(hSR1.trans hSR2).trans ?_, ?_⟩
          · simpa using hSR3
          · rw [hT3, hT2, hT1]

theorem findCore_splitRefines {p : Para} {ms : List (List (Int × Int))}
    {q : Para} {spans : List (Nat × Nat)} {groups : List (List (Nat × Nat))}
    (h : findCore p ms = some (q, spans, groups)) :
    SplitRefines p q ∧ paraText q = paraText p := by
  unfold findCore at h
  by_cases hms : ms = []
  · rw [if_pos hms] at h
    have := congrArg Prod.fst (Option.some.inj h)
    simp only at this
    rw [← this]
    exact ⟨SplitRefines.refl _, rfl⟩
  · rw [if_neg hms] at h
    exact findMatchFold_splitRefines ms (p, [], []) (q, spans, groups) h

theorem farPair_find_phase {sem : PatternSem} {p : Para} {repl : List Char} {p' : Para}
    (h : farPair sem p repl = some p') :
    ∃ q spans groups, findCore p (sem.search (paraText p)) = some (q, spans, groups) ∧
      SplitRefines p q ∧ paraText q = paraText p := by
  unfold farPair at h
  dsimp only at h
  rcases h1 : findCore p (sem.search (paraText p)) with _ | r
  · rw [h1, Option.none_bind] at h
    exact absurd h (by simp)
  · obtain ⟨q, spans, groups⟩ := r
    obtain ⟨hSR, hT⟩ := findCore_splitRefines h1
    exact ⟨q, spans, groups, rfl, hSR, hT⟩

/-- C2: the public operations respect the run data model.  The paragraph
text being *derived* (python-docx computes `CT_P.text` from the runs), the
invariant `len(text) = sum of run text lengths` holds by construction
(first conjunct); and each operation changes the run sequence only in the
claimed ways: `split_run_at_string_index` replaces one run in place by two
runs with the same `rPr` whose texts concatenate to the original;
`insert_run_after` inserts one new run immediately after its anchor;
`remove_run` removes exactly one run; `isolate_para_runs_by_span` and
`find` only split runs in place (`SplitRefines`), preserving the
paragraph text, the surviving runs' order and their attributes; and a
`find_and_replace` pass factors through such a split-only `find` phase
before the executor applies its per-match range replacements (whose
shape is the subject of the C6 theorem). -/
theorem c2_public_ops_invariant :
    (∀ p : Para, ((paraText p).length : Int) = sumLens p)
    ∧ (∀ (r : Run) (index : Int) (a b : Run),
        split_run_at_string_index r index = some (a, b) →
        a.text ++ b.text = r.text ∧ a.rpr = r.rpr ∧ b.rpr = r.rpr)
    ∧ (∀ (p : Para) (k index : Int) (p' : Para),
        splitParaRun p k index = some p' →
        paraText p' = paraText p ∧ SplitRefines p p')
    ∧ (∀ (p : Para) (k : Nat) (t : List Char) (a : Option Nat) (p' : Para),
        insert_run_after p k t a = some p' →
        ∃ anchor, p.get? k = some anchor ∧
          p' = p.take (k + 1) ++
            { text := t, rpr := match a with | none => anchor.rpr | some h => some h } ::
            p.drop (k + 1))
    ∧ (∀ (p : Para) (k : Nat) (p' : Para),
        remove_run p k = some p' → p' = p.take k ++ p.drop (k + 1))
    ∧ (∀ (p : Para) (sp : Int × Int) (q : Para) (lo hi : Nat),
        isolate_para_runs_by_span p sp = some (q, lo, hi) →
        paraText q = paraText p ∧ SplitRefines p q)
    ∧ (∀ (p : Para) (ms : List (List (Int × Int))) (q : Para)
        (spans : List (Nat × Nat)) (groups : List (List (Nat × Nat))),
        findCore p ms = some (q, spans, groups) →
        paraText q = paraText p ∧ SplitRefines p q)
    ∧ (∀ (sem : PatternSem) (p : Para) (repl : List Char) (p' : Para),
        farPair sem p repl = some p' →
        ∃ q spans groups, findCore p (sem.search (paraText p)) = some (q, spans, groups) ∧
          SplitRefines p q ∧ paraText q = paraText p) := by
  refine ⟨?_, ?_, ?_, ?_, ?_, ?_, ?_, ?_⟩
  · intro p
    exact (sumLens_eq_textLength p).symm
  · intro r index a b h
    unfold split_run_at_string_index at h
    by_cases hg : index ≤ 0 ∨ (r.text.length : Int) ≤ index
    · rw [if_pos hg] at h
      exact absurd h (by simp)
    · rw [if_neg hg] at h
      have hab := Option.some.inj h
      have ha : a = { text := r.text.take index.toNat, rpr := r.rpr } :=
        (congrArg Prod.fst hab).symm
      have hb : b = { text := r.text.drop index.toNat, rpr := r.rpr } :=
        (congrArg Prod.snd hab).symm
      rw [ha, hb]
      exact ⟨List.take_append_drop _ _, rfl, rfl⟩
  · intro p k index p' h
    exact ⟨splitParaRun_paraText h, splitParaRun_splitRefines h⟩
  · intro p k t a p' h
    unfold insert_run_after add_run_after_run at h
    rcases hg : p.get? k with _ | anchor
    · rw [hg] at h
      exact absurd h (by simp)
    · rw [hg] at h
      refine ⟨anchor, rfl, ?_⟩
      rcases a with _ | hh
      · exact (Option.some.inj h).symm
      · exact (Option.some.inj h).symm
  · intro p k p' h
    unfold remove_run at h
    by_cases hk : k < p.length
    · rw [if_pos hk] at h
      exact (Option.some.inj h).symm
    · rw [if_neg hk] at h
      exact absurd h (by simp)
  · intro p sp q lo hi h
    have := isolate_splitRefines h
    exact ⟨this.2, this.1⟩
  · intro p ms q spans groups h
    have := findCore_splitRefines h
    exact ⟨this.2, this.1⟩
  · intro sem p repl p' h
    exact farPair_find_phase h

theorem c2_witness :
    paraText ([{ text := ['A'], rpr := some 0 }, { text := ['B'], rpr := some 0 }] : Para) =
        paraText ([{ text := ['A', 'B'], rpr := some 0 }] : Para) ∧
      SplitRefines [{ text := ['A', 'B'], rpr := some 0 }]
        [{ text := ['A'], rpr := some 0 }, { text := ['B'], rpr := some 0 }] :=
  c2_public_ops_invariant.2.2.2.2.2.1 [{ text := ['A', 'B'], rpr := some 0 }] (1, 2)
    [{ text := ['A'], rpr := some 0 }, { text := ['B'], rpr := some 0 }] 1 2 (by rfl)

/-! ### Lemmas for the literal self-replace round trip (C8) -/

theorem cumLen_take_eq {q q' : Para} {m : Nat} (h : q'.take m = q.take m) :
    ∀ i, i ≤ m → cumLen q' i = cumLen q i := by
  intro i hi
  unfold cumLen
  have h1 : q'.take i = (q'.take m).take i := by
    rw [List.take_take]
    congr 1
    omega
  have h2 : q.take i = (q.take m).take i := by
    rw [List.take_take]
    congr 1
    omega
  rw [h1, h2, h]

theorem bisect_of_take_eq {q q' : Para} {m : Nat} (htake : q'.take m = q.take m)
    (hm : m ≤ q.length) (hm' : m ≤ q'.length) {v : Int}
    (hb : bisectLeft (runStarts q) v ≤ m) :
    bisectLeft (runStarts q') v = bisectLeft (runStarts q) v := by
  set idx := bisectLeft (runStarts q) v with hidx
  have hidx_le : idx ≤ q.length := by omega
  have hcum := cumLen_take_eq htake
  apply bisectLeft_eq_of
  · intro j w hj hw
    have hj_le : j ≤ q'.length := by omega
    rw [runStarts_getElem? q' (by omega)] at hw
    have hww := Option.some.inj hw
    have h1 : cumLen q' j = cumLen q j := hcum j (by omega)
    have h2 := get_lt_of_lt_bisectLeft (l := runStarts q) (v := v) (j := j)
      (by omega) (runStarts_getElem? q (by omega))
    omega
  · right
    refine ⟨cumLen q' idx, runStarts_getElem? q' (by omega), ?_⟩
    have h1 : cumLen q' idx = cumLen q idx := hcum idx (by omega)
    obtain ⟨w, hw, hvw⟩ := bisectLeft_stop (l := runStarts q) (v := v)
      (by rw [runStarts_length]; omega)
    rw [← hidx] at hw
    rw [runStarts_getElem? q (by omega)] at hw
    have h2 := Option.some.inj hw
    omega

theorem sliceText_of_take_eq {q q' : Para} {m lo hi : Nat} (htake : q'.take m = q.take m)
    (hhi : hi ≤ m) :
    sliceText q' lo hi = sliceText q lo hi := by
  unfold sliceText
  have h1 : (q'.drop lo).take (hi - lo) = (q'.take hi).drop lo := by
    rw [List.drop_take]
  have h2 : (q.drop lo).take (hi - lo) = (q.take hi).drop lo := by
    rw [List.drop_take]
  have h3 : q'.take hi = q.take hi := by
    have h4 : q'.take hi = (q'.take m).take hi := by
      rw [List.take_take]
      congr 1
      omega
    have h5 : q.take hi = (q.take m).take hi := by
      rw [List.take_take]
      congr 1
      omega
    rw [h4, h5, htake]
  rw [h1, h2, h3]

theorem GoodRanges_frame {pat : List Char} {q q' : Para} {fin : Nat}
    (htake : q'.take fin = q.take fin) (hfin' : fin ≤ q'.length) :
    ∀ {bnd : Nat} {rs : List (Nat × Nat)}, GoodRanges pat q bnd rs fin →
      GoodRanges pat q' bnd rs fin := by
  intro bnd rs
  induction rs generalizing bnd with
  | nil => intro h; exact h
  | cons rr rest ih =>
    intro h
    obtain ⟨h1, h2, h3, h4, h5⟩ := h
    have hhi_fin : rr.2 ≤ fin := by
      clear h1 h2 h3 h4 ih
      induction rest generalizing rr with
      | nil => exact h5
      | cons rr2 rest2 ih2 =>
        obtain ⟨g1, g2, g3, g4, g5⟩ := h5
        have := ih2 rr2 g5
        omega
    exact ⟨h1, h2, by omega, by rw [sliceText_of_take_eq htake hhi_fin]; exact h4, ih h5⟩

theorem GoodRanges_le_fin {pat : List Char} {q : Para} :
    ∀ {rs : List (Nat × Nat)} {bnd fin : Nat}, GoodRanges pat q bnd rs fin → bnd ≤ fin := by
  intro rs
  induction rs with
  | nil => intro bnd fin h; exact h
  | cons rr rest ih =>
    intro bnd fin h
    obtain ⟨h1, h2, _, _, h5⟩ := h
    have := ih h5
    omega

theorem GoodRanges_append {pat : List Char} {q : Para} {lo hi : Nat}
    (hlohi : lo < hi) (hhi : hi ≤ q.length) (hslice : sliceText q lo hi = pat) :
    ∀ {rs : List (Nat × Nat)} {bnd fin : Nat}, GoodRanges pat q bnd rs fin → fin ≤ lo →
      GoodRanges pat q bnd (rs ++ [(lo, hi)]) hi := by
  intro rs
  induction rs with
  | nil =>
    intro bnd fin h hfin
    exact ⟨by unfold GoodRanges at h; omega, hlohi, hhi, hslice, le_refl hi⟩
  | cons rr rest ih =>
    intro bnd fin h hfin
    obtain ⟨h1, h2, h3, h4, h5⟩ := h
    exact ⟨h1, h2, h3, h4, ih h5 hfin⟩

theorem GoodRanges_snoc_inv {pat : List Char} {q : Para} {y : Nat × Nat} :
    ∀ {rs : List (Nat × Nat)} {bnd fin : Nat}, GoodRanges pat q bnd (rs ++ [y]) fin →
      GoodRanges pat q bnd rs y.1 ∧ y.1 < y.2 ∧ y.2 ≤ q.length ∧
        sliceText q y.1 y.2 = pat := by
  intro rs
  induction rs with
  | nil =>
    intro bnd fin h
    obtain ⟨h1, h2, h3, h4, _⟩ := h
    exact ⟨h1, h2, h3, h4⟩
  | cons rr rest ih =>
    intro bnd fin h
    obtain ⟨h1, h2, h3, h4, h5⟩ := h
    obtain ⟨g1, g2, g3, g4⟩ := ih h5
    exact ⟨⟨h1, h2, h3, h4, g1⟩, g2, g3, g4⟩

theorem ChainFrom_mono {pat orig : List Char} {i j : Nat} (hij : i ≤ j) :
    ∀ {ms : List (List (Int × Int))}, ChainFrom pat orig j ms → ChainFrom pat orig i ms := by
  intro ms h
  cases ms with
  | nil => trivial
  | cons regs rest =>
    obtain ⟨st, h1, h2, h3, h4, h5⟩ := h
    exact ⟨st, h1, by omega, h3, h4, h5⟩

theorem occAux_chain_aux (pat orig : List Char) (hp : pat ≠ []) :
    ∀ (fuel i : Nat), orig.length - i < fuel →
      ChainFrom pat orig i (occAux pat fuel (orig.drop i) i) := by
  intro fuel
  induction fuel with
  | zero =>
    intro i hi
    omega
  | succ fuel ih =>
    intro i hi
    rcases hdrop : orig.drop i with _ | ⟨c, rest⟩
    · unfold occAux
      trivial
    · have hlen : rest.length + 1 = orig.length - i := by
        have hld := List.length_drop i orig
        rw [hdrop] at hld
        simp at hld
        omega
      have hi_lt : i < orig.length := by omega
      unfold occAux
      dsimp only
      by_cases hpre : pat.isPrefixOf (c :: rest)
      · rw [if_pos ⟨hp, hpre⟩]
        have hpfx : pat <+: (c :: rest) := List.isPrefixOf_iff_prefix.mp hpre
        have hplen : pat.length ≤ rest.length + 1 := by
          have := hpfx.length_le
          simpa using this
        have hppos : 0 < pat.length := List.length_pos.mpr hp
        refine ⟨i, rfl, le_refl i, by omega, ?_, ?_⟩
        · rw [hdrop]
          exact (List.prefix_iff_eq_take.mp hpfx).symm
        · have hdrop2 : (c :: rest).drop pat.length = orig.drop (i + pat.length) := by
            rw [← hdrop, List.drop_drop]
          rw [hdrop2]
          exact ih (i + pat.length) (by omega)
      · rw [if_neg (by tauto)]
        have hrest : rest = orig.drop (i + 1) := by
          have hd : orig.drop (i + 1) = List.drop 1 (orig.drop i) := by
            rw [List.drop_drop]
          rw [hd, hdrop]
          rfl
        rw [hrest]
        exact ChainFrom_mono (by omega) (ih (i + 1) (by omega))

theorem scanRefsAux_no_backslash :
    ∀ (fuel : Nat) (s : List Char) (pos : Nat), '\\' ∉ s → scanRefsAux fuel s pos = [] := by
  intro fuel
  induction fuel with
  | zero => intro s pos _; rfl
  | succ fuel ih =>
    intro s pos h
    cases s with
    | nil => rfl
    | cons c rest =>
      have hc : ¬(c = '\\') := by
        intro hc
        exact h (by rw [hc]; exact List.mem_cons_self _ _)
      unfold scanRefsAux
      dsimp only
      rw [if_neg hc]
      exact ih rest (pos + 1) (fun hm => h (List.mem_cons_of_mem _ hm))

theorem buildSections_no_backslash {repl : List Char} (h : '\\' ∉ repl) :
    buildSections repl = [(none, 0, repl.length)] := by
  unfold buildSections find_reference_in_repl
  rw [scanRefsAux_no_backslash _ _ _ h]
  rfl

theorem expandAux_no_backslash (g : List (List Char × Nat)) (regs : List (Int × Int))
    (orig : List Char) :
    ∀ (fuel : Nat) (s : List Char), s.length < fuel → '\\' ∉ s →
      expandAux g regs orig fuel s = some s := by
  intro fuel
  induction fuel with
  | zero => intro s h _; omega
  | succ fuel ih =>
    intro s hlen h
    cases s with
    | nil => rfl
    | cons c rest =>
      have hc : ¬(c = '\\') := by
        intro hc
        exact h (by rw [hc]; exact List.mem_cons_self _ _)
      unfold expandAux
      dsimp only
      rw [if_neg hc]
      rw [ih rest (by simpa using Nat.lt_of_succ_lt_succ hlen)
        (fun hm => h (List.mem_cons_of_mem _ hm))]
      rfl

theorem matchExpand_no_backslash (g : List (List Char × Nat)) (regs : List (Int × Int))
    (orig : List Char) {s : List Char} (h : '\\' ∉ s) :
    matchExpand g regs orig s = some s :=
  expandAux_no_backslash g regs orig (s.length + 1) s (by omega) h

theorem paraText_decomp {q : Para} {lo hi : Nat} (hlohi : lo ≤ hi) (_ : hi ≤ q.length) :
    paraText q = paraText (q.take lo) ++ sliceText q lo hi ++ paraText (q.drop hi) := by
  conv_lhs => rw [para_decomp q hlohi]
  rw [paraText_append, paraText_append]
  rfl

theorem processReplace_eq {q : Para} {lo hi : Nat} (hlo : lo < q.length) (hlohi : lo < hi)
    (newRuns : List Run) :
    ((newRuns.foldl (fun acc r => insertAfterIdx acc lo r) q).take lo ++
      ((newRuns.foldl (fun acc r => insertAfterIdx acc lo r) q).drop (lo + 1)).take
        newRuns.length ++
      (newRuns.foldl (fun acc r => insertAfterIdx acc lo r) q).drop (hi + newRuns.length)) =
    q.take lo ++ newRuns.reverse ++ q.drop hi := by
  rw [insertLoop_eq hlo newRuns]
  have hlen1 : (q.take (lo + 1)).length = lo + 1 := by
    simp only [List.length_take]
    omega
  have htake : (q.take (lo + 1) ++ newRuns.reverse ++ q.drop (lo + 1)).take lo = q.take lo := by
    rw [List.append_assoc, List.take_append_of_le_length (by omega), List.take_take]
    congr 1
    omega
  have hdrop1 : (q.take (lo + 1) ++ newRuns.reverse ++ q.drop (lo + 1)).drop (lo + 1)
      = newRuns.reverse ++ q.drop (lo + 1) := by
    rw [List.append_assoc, List.drop_append_of_le_length (by omega)]
    rw [List.drop_of_length_le (by omega)]
    simp
  have hmid : ((q.take (lo + 1) ++ newRuns.reverse ++ q.drop (lo + 1)).drop (lo + 1)).take
      newRuns.length = newRuns.reverse := by
    rw [hdrop1]
    rw [List.take_append_of_le_length (by simp)]
    simp
  have hdrop2 : (q.take (lo + 1) ++ newRuns.reverse ++ q.drop (lo + 1)).drop
      (hi + newRuns.length) = q.drop hi := by
    rw [List.append_assoc]
    rw [List.drop_append_eq_append_drop]
    rw [List.drop_of_length_le (by omega)]
    rw [List.drop_append_eq_append_drop]
    rw [List.drop_of_length_le (by simp; omega)]
    simp only [List.nil_append]
    rw [List.drop_drop]
    congr 1
    simp only [List.length_reverse, hlen1]
    omega
  rw [htake, hmid, hdrop2]

theorem processMatch_literal {sem : PatternSem} {pat orig : List Char} (hnb : '\\' ∉ pat)
    {q : Para} (regs : List (Int × Int)) {lo hi : Nat} {anchor : Run}
    (hanchor : q.get? lo = some anchor) (hlohi : lo < hi) :
    processMatch sem q orig pat (buildSections pat) regs [(lo, hi)] lo hi =
      some (q.take lo ++ [{ text := pat, rpr := anchor.rpr }] ++ q.drop hi) := by
  have hlo : lo < q.length := by
    rw [List.get?_eq_getElem?] at hanchor
    exact (List.getElem?_eq_some.mp hanchor).1
  unfold processMatch
  have h1 : firstNormalLoop q [(lo, hi)] lo = some none := by
    unfold firstNormalLoop
    rw [if_pos rfl]
    rfl
  rw [h1, Option.some_bind]
  have h2 : (([(lo, hi)] : List (Nat × Nat)).tail).mapM (fun g =>
      (q.get? g.1).map (fun r => r.rpr.map fun h => (h, g.1))) = some [] := rfl
  rw [h2, Option.some_bind, hanchor, Option.some_bind]
  rw [buildSections_no_backslash hnb]
  rw [List.foldlM_cons]
  dsimp only
  have hraw : ((pat.drop 0).take (pat.length - 0)) = pat := by
    simp
  rw [hraw, matchExpand_no_backslash sem.groupindex regs orig hnb, Option.some_bind]
  rw [Option.some_bind]
  unfold add_run_after_run
  rw [hanchor]
  dsimp only [Option.map_some']
  simp only [Option.bind_eq_bind, Option.some_bind, List.foldlM_nil, Option.pure_def]
  rw [if_pos hlohi]
  exact congrArg some (processReplace_eq hlo hlohi [{ text := pat, rpr := anchor.rpr }])

theorem findFold_literal (pat orig : List Char) (hp : pat ≠ []) :
    ∀ (ms : List (List (Int × Int))) (cb : Nat) (q : Para)
      (spansAcc : List (Nat × Nat)) (bnd : Nat),
      ChainFrom pat orig cb ms →
      paraText q = orig →
      GoodRanges pat q 0 spansAcc bnd →
      bnd ≤ q.length →
      cumLen q bnd = (cb : Int) →
      bisectLeft (runStarts q) (cb : Int) = bnd →
      ∃ (q' : Para) (spans' : List (Nat × Nat)) (bnd' : Nat),
        ms.foldlM
          (fun (acc : Para × List (Nat × Nat) × List (List (Nat × Nat))) regs =>
            match regs with
            | [] => none
            | overall :: grps =>
              (isolate_para_runs_by_span acc.1 overall).bind fun r1 =>
                let q1 := r1.1
                let sp := r1.2
                (grps.foldlM
                  (fun (st : Para × List (Nat × Nat)) g =>
                    (isolate_para_runs_by_span st.1 g).bind fun r =>
                      some (r.1, st.2 ++ [r.2]))
                  (q1, [])).bind fun r2 =>
                  let q2 := r2.1
                  let shift := q2.length - q1.length
                  let spAdj : Nat × Nat := (sp.1, sp.2 + shift)
                  some (q2, acc.2.1 ++ [spAdj], acc.2.2 ++ [spAdj :: r2.2]))
          (q, spansAcc, spansAcc.map (fun sp => [sp])) =
          some (q', spansAcc ++ spans', (spansAcc ++ spans').map (fun sp => [sp])) ∧
        paraText q' = orig ∧
        GoodRanges pat q' 0 (spansAcc ++ spans') bnd' ∧ bnd' ≤ q'.length ∧
        spans'.length = ms.length := by
  intro ms
  induction ms with
  | nil =>
    intro cb q spansAcc bnd hchain hT hGR hbnd hcum hbis
    refine ⟨q, [], bnd, ?_, hT, by simpa using hGR, hbnd, rfl⟩
    rw [List.foldlM_nil]
    simp
  | cons regs rest ih =>
    intro cb q spansAcc bnd hchain hT hGR hbnd hcum hbis
    obtain ⟨st, hregs, hcb_st, hen_le, htake_pat, hchain'⟩ := hchain
    have hppos : 0 < pat.length := List.length_pos.mpr hp
    have hse : (st : Int) < (st : Int) + pat.length := by omega
    have he : (st : Int) + pat.length ≤ sumLens q := by
      rw [sumLens_eq_textLength, hT]
      omega
    obtain ⟨q1, lo, hi, heq, hT1, hSR1, hlen1, hlen2, hhi_le, hcs, hce, hbls, hble, hframe⟩ :=
      isolate_spec (p := q) (s := (st : Int)) (e := (st : Int) + pat.length)
        (by omega) hse he
    have htakebnd : q1.take bnd = q.take bnd := by
      apply hframe
      intro i hi2
      have := cumLen_mono q hi2
      omega
    have hbnd_q1 : bnd ≤ q1.length := by omega
    have hbisect_pres : bisectLeft (runStarts q1) (cb : Int) = bnd := by
      rw [bisect_of_take_eq htakebnd hbnd hbnd_q1 (by omega), hbis]
    have hbnd_lo : bnd ≤ lo := by
      have hmono := bisectLeft_mono (runStarts q1) (show (cb : Int) ≤ (st : Int) by omega)
      rw [hbisect_pres, hbls] at hmono
      exact hmono
    have hlo_hi : lo < hi := by
      by_contra hc
      have := cumLen_mono q1 (Nat.le_of_not_lt hc)
      omega
    have hGR1 : GoodRanges pat q1 0 spansAcc bnd := GoodRanges_frame htakebnd hbnd_q1 hGR
    have hslice : sliceText q1 lo hi = pat := by
      have hx := sliceText_eq_extract (le_of_lt hlo_hi) hhi_le
      rw [hcs, hce, hT1, hT] at hx
      have h1 : ((st : Int)).toNat = st := by omega
      have h2 : ((st : Int) + pat.length - (st : Int)).toNat = pat.length := by omega
      rw [h1, h2] at hx
      rw [hx, htake_pat]
    have hGR2 : GoodRanges pat q1 0 (spansAcc ++ [(lo, hi)]) hi :=
      GoodRanges_append hlo_hi hhi_le hslice hGR1 hbnd_lo
    have hcum' : cumLen q1 hi = ((st + pat.length : Nat) : Int) := by
      rw [hce]
      push_cast
      ring
    have hbis' : bisectLeft (runStarts q1) ((st + pat.length : Nat) : Int) = hi := by
      have : ((st + pat.length : Nat) : Int) = (st : Int) + pat.length := by push_cast; ring
      rw [this, hble]
    obtain ⟨q', spans'', bnd', hfold, hT', hGR', hbnd', hlen'⟩ :=
      ih (st + pat.length) q1 (spansAcc ++ [(lo, hi)]) hi hchain' (hT1.trans hT) hGR2
        hhi_le hcum' hbis'
    refine ⟨q', (lo, hi) :: spans'', bnd', ?_, hT', ?_, hbnd', by simp [hlen']⟩
    · subst hregs
      rw [List.foldlM_cons]
      dsimp only
      rw [heq, Option.some_bind]
      dsimp only
      rw [List.foldlM_nil]
      dsimp only [Option.pure_def, Option.some_bind]
      simp only [Nat.sub_self, Nat.add_zero]
      have hmap : (spansAcc.map (fun sp => [sp])) ++ [[(lo, hi)]] =
          (spansAcc ++ [(lo, hi)]).map (fun sp => [sp]) := by simp
      rw [hmap]
      simp only [Option.bind_eq_bind, Option.some_bind]
      have hassoc2 : spansAcc ++ [(lo, hi)] ++ spans'' = spansAcc ++ (lo, hi) :: spans'' := by
        simp
      rw [hassoc2] at hfold
      exact hfold
    · have hassoc : (spansAcc ++ [(lo, hi)]) ++ spans'' = spansAcc ++ (lo, hi) :: spans'' := by
        simp
      rw [← hassoc]
      exact hGR'

theorem execFold_literal (sem : PatternSem) (pat orig : List Char) (hnb : '\\' ∉ pat)
    (ms : List (List (Int × Int))) (spans : List (Nat × Nat)) (hlen : spans.length ≤ ms.length) :
    ∀ (k : Nat) (q : Para), k ≤ spans.length →
      (∃ fin, GoodRanges pat q 0 (spans.take k) fin ∧ fin ≤ q.length) →
      ∃ q',
        (List.range k).reverse.foldlM
          (fun q i =>
            (ms.get? i).bind fun regs =>
              ((spans.map (fun sp => [sp])).get? i).bind fun groups =>
                (spans.get? i).bind fun sp =>
                  processMatch sem q orig pat (buildSections pat) regs groups sp.1 sp.2)
          q = some q' ∧
        paraText q' = paraText q := by
  intro k
  induction k with
  | zero =>
    intro q _ _
    exact ⟨q, by simp, rfl⟩
  | succ k ih =>
    intro q hk hinv
    obtain ⟨fin, hGR, hfin⟩ := hinv
    have hklt : k < spans.length := by omega
    have htake : spans.take (k + 1) = spans.take k ++ [spans[k]] := by
      rw [List.take_succ]
      simp [List.getElem?_eq_getElem hklt]
    rw [htake] at hGR
    obtain ⟨hGRk, hlohi, hhiq, hslice⟩ := GoodRanges_snoc_inv hGR
    have hloq : spans[k].1 < q.length := lt_of_lt_of_le hlohi hhiq
    have hanchor : q.get? spans[k].1 = some (q[spans[k].1]) := by
      rw [List.get?_eq_getElem?]
      exact List.getElem?_eq_getElem hloq
    have hms : ms.get? k = some ms[k] := by
      rw [List.get?_eq_getElem?]
      exact List.getElem?_eq_getElem (by omega)
    have hgrp : (spans.map (fun sp => [sp])).get? k = some [spans[k]] := by
      rw [List.get?_eq_getElem?, List.getElem?_map, List.getElem?_eq_getElem hklt]
      rfl
    have hsp : spans.get? k = some spans[k] := by
      rw [List.get?_eq_getElem?]
      exact List.getElem?_eq_getElem hklt
    have hpm := @processMatch_literal sem pat orig hnb q (ms[k]) _ _ _ hanchor hlohi
    have hrange : (List.range (k + 1)).reverse = k :: (List.range k).reverse := by
      rw [List.range_succ, List.reverse_append]
      rfl
    have hq2take : (q.take spans[k].1 ++ [({ text := pat, rpr := (q[spans[k].1]).rpr } : Run)] ++
        q.drop spans[k].2).take spans[k].1 = q.take spans[k].1 := by
      rw [List.append_assoc, List.take_append_of_le_length
        (by simp only [List.length_take]; omega), List.take_take]
      simp
    have hq2len : spans[k].1 ≤ (q.take spans[k].1 ++
        [({ text := pat, rpr := (q[spans[k].1]).rpr } : Run)] ++ q.drop spans[k].2).length := by
      simp only [List.length_append, List.length_take, List.length_cons, List.length_nil]
      omega
    have hGR2 : GoodRanges pat (q.take spans[k].1 ++
        [({ text := pat, rpr := (q[spans[k].1]).rpr } : Run)] ++ q.drop spans[k].2) 0
        (spans.take k) spans[k].1 :=
      GoodRanges_frame hq2take hq2len hGRk
    have hT2 : paraText (q.take spans[k].1 ++
        [({ text := pat, rpr := (q[spans[k].1]).rpr } : Run)] ++ q.drop spans[k].2) = paraText q := by
      rw [paraText_append, paraText_append]
      rw [paraText_decomp (le_of_lt hlohi) hhiq, hslice]
      simp [paraText]
    obtain ⟨q', hfold, hT'⟩ := ih (q.take spans[k].1 ++
        [({ text := pat, rpr := (q[spans[k].1]).rpr } : Run)] ++ q.drop spans[k].2)
      (by omega) ⟨spans[k].1, hGR2, hq2len⟩
    refine ⟨q', ?_, hT'.trans hT2⟩
    rw [hrange, List.foldlM_cons]
    simp only [Option.bind_eq_bind]
    rw [hms, Option.some_bind, hgrp, Option.some_bind, hsp, Option.some_bind, hpm]
    simp only [Option.some_bind]
    exact hfold

theorem bisectLeft_runStarts_zero (p : Para) : bisectLeft (runStarts p) 0 = 0 := by
  apply bisectLeft_eq_of
  · intro j w hj _
    omega
  · right
    refine ⟨cumLen p 0, runStarts_getElem? p (Nat.zero_le _), ?_⟩
    rw [cumLen_zero]

/-- C8: for a nonempty literal pattern containing no backslash, replacing
every match of the pattern by the pattern itself as a literal template
succeeds and leaves the paragraph text unchanged. -/
theorem c8_literal_self_replace (p : Para) (pat : List Char) (hne : pat ≠ [])
    (hnb : '\\' ∉ pat) :
    ∃ p', find_and_replace literalCompile p [pat] [pat] = some p' ∧
      paraText p' = paraText p := by
  have hms : (literalCompile pat).search (paraText p) =
      occAux pat ((paraText p).length + 1) (paraText p) 0 := by
    unfold literalCompile
    dsimp only
    rw [if_neg hne]
  have hchain : ChainFrom pat (paraText p) 0
      (occAux pat ((paraText p).length + 1) (paraText p) 0) := by
    have h := occAux_chain_aux pat (paraText p) hne ((paraText p).length + 1) 0 (by omega)
    simpa using h
  have hfar : ∃ p', farPair (literalCompile pat) p pat = some p' ∧
      paraText p' = paraText p := by
    unfold farPair
    dsimp only
    rw [hms]
    by_cases hnil : occAux pat ((paraText p).length + 1) (paraText p) 0 = []
    · rw [hnil]
      unfold findCore
      rw [if_pos rfl, Option.some_bind]
      exact ⟨p, by simp, rfl⟩
    · unfold findCore
      rw [if_neg hnil]
      obtain ⟨q', spans', bnd', hfold, hT', hGR', hbnd', hlen'⟩ :=
        findFold_literal pat (paraText p) hne
          (occAux pat ((paraText p).length + 1) (paraText p) 0) 0 p [] 0 hchain rfl
          (Nat.le_refl 0) (Nat.zero_le _) (by rw [cumLen_zero]; rfl)
          (bisectLeft_runStarts_zero p)
      simp only [List.map_nil, List.nil_append] at hfold
      rw [hfold, Option.some_bind]
      obtain ⟨q'', hexec, hTexec⟩ := execFold_literal (literalCompile pat) pat (paraText p)
        hnb (occAux pat ((paraText p).length + 1) (paraText p) 0) spans' (by omega)
        spans'.length q' (Nat.le_refl _)
        ⟨bnd', by rw [List.take_length]; exact hGR', hbnd'⟩
      exact ⟨q'', hexec, hTexec.trans hT'⟩
  obtain ⟨p', hfarEq, hT⟩ := hfar
  refine ⟨p', ?_, hT⟩
  unfold find_and_replace
  have hz : ([pat].zip [pat]) = [(pat, pat)] := rfl
  rw [hz, List.foldlM_cons]
  simp only [List.foldlM_nil, bind_pure]
  exact hfarEq

/-- C8 counterexample: the empty pattern is a literal pattern, and the
empty template contains no back-reference, yet `find_and_replace` raises
IndexError: `re.finditer` yields an empty match at position 1, strictly
inside the two-character run, and isolating the empty span crashes. -/
theorem c8_counterexample :
    find_and_replace literalCompile [{ text := ['A', 'B'], rpr := some 0 }] [[]] [[]] =
      none := by rfl

theorem c8_witness :
    ∃ p', find_and_replace literalCompile paraAB ["AB".toList] ["AB".toList] = some p' ∧
      paraText p' = paraText paraAB :=
  c8_literal_self_replace paraAB "AB".toList (by decide) (by decide)
